import Mathlib

/-!
Verification of the ssroute/typescript maritime-routing core.

This file gives a shallow embedding of the pathfinding subsystem:
the haversine heuristic (src/src/heuristics.ts and the second copy in
src/unnamed/part_002), the graph with its spatial grid
(src/unnamed/part_000, src/src/graph.ts), nearest-node resolution
(src/src/nearest-node.ts), the A* search and router
(src/unnamed/part_001), the distance front end (src/unnamed/part_003),
and the indexed binary min-heap priority queue (src/unnamed/part_001).

Modelling conventions:
- JS numbers are modelled as real numbers (coordinates, trig) and, for
  edge weights / costs, as an arbitrary `LinearOrderedAddCommMonoid`
  so that concrete runs can be evaluated at `Int` while the actual
  program corresponds to the `Real` instantiation with the haversine
  heuristic.
- JS `Map` objects are modelled as functions into `Option` updated
  pointwise; insertion order is never observed by the code.
- The spatial-grid key string `"gLat,gLon"` is modelled as the pair
  `(gLat, gLon) : Int × Int`; the string encoding of an integer pair is
  injective, so this is faithful.
- Unbounded `while` loops are modelled with an explicit fuel parameter
  (`aStar`) or with the loop's own bound (`findNearestNode`'s radius
  expansion stops at radius 5; the heap's bubble walks are proved
  terminating).
-/

/-- Geographic point, `{lat, lon}` in degrees (src/src/types.ts). -/
structure Point where
  lat : ℝ
  lon : ℝ

/-- Graph vertex: integer id plus coordinates (src/src/types.ts). -/
structure GraphNode where
  id : ℤ
  lat : ℝ
  lon : ℝ

/-- View a graph node as a point; TypeScript passes `GraphNode` where a
`Point` is expected by structural typing. -/
def GraphNode.pt (n : GraphNode) : Point := ⟨n.lat, n.lon⟩

/-- One directed adjacency record (src/src/types.ts). -/
structure AdjacencyEntry (W : Type) where
  nodeId : ℤ
  distance : W

/-- Degrees to radians (src/src/heuristics.ts, lines 41-43). -/
noncomputable def toRadians (degrees : ℝ) : ℝ := degrees * (Real.pi / 180)

/-- JavaScript's `Math.atan2 (y, x)`. In the haversine formula it is only
ever applied to nonnegative square roots. -/
noncomputable def atan2 (y x : ℝ) : ℝ :=
  if 0 < x then Real.arctan (y / x)
  else if x < 0 then
    (if 0 ≤ y then Real.arctan (y / x) + Real.pi else Real.arctan (y / x) - Real.pi)
  else
    (if 0 < y then Real.pi / 2 else if y < 0 then -(Real.pi / 2) else 0)

/-- Earth radius used by src/src/heuristics.ts (WGS84 equatorial radius,
nautical miles). -/
noncomputable def EARTH_RADIUS_NM : ℝ := 3443.918

/-- Earth radius used by the second implementation in
src/unnamed/part_002 (mean radius 6371 km in nautical miles). -/
noncomputable def EARTH_RADIUS_NM_LEGACY : ℝ := 3440.065

/-- The `a` term of the haversine formula, shared by both
implementations (heuristics.ts lines 21-28). -/
noncomputable def haversineA (point1 point2 : Point) : ℝ :=
  let lat1Rad := toRadians point1.lat
  let lat2Rad := toRadians point2.lat
  let deltaLatRad := toRadians (point2.lat - point1.lat)
  let deltaLonRad := toRadians (point2.lon - point1.lon)
  Real.sin (deltaLatRad / 2) * Real.sin (deltaLatRad / 2) +
    Real.cos lat1Rad * Real.cos lat2Rad *
      Real.sin (deltaLonRad / 2) * Real.sin (deltaLonRad / 2)

/-- The central angle `c = 2 * atan2 (sqrt a, sqrt (1 - a))`
(heuristics.ts line 30). -/
noncomputable def haversineC (point1 point2 : Point) : ℝ :=
  2 * atan2 (Real.sqrt (haversineA point1 point2))
      (Real.sqrt (1 - haversineA point1 point2))

/-- Haversine distance of src/src/heuristics.ts (lines 20-33),
in nautical miles with the WGS84 equatorial radius. -/
noncomputable def haversineDistance (point1 point2 : Point) : ℝ :=
  EARTH_RADIUS_NM * haversineC point1 point2

/-- Haversine distance of src/unnamed/part_002 (lines 15-28); identical
formula but with the 6371 km Earth radius. -/
noncomputable def haversineDistanceLegacy (point1 point2 : Point) : ℝ :=
  EARTH_RADIUS_NM_LEGACY * haversineC point1 point2

/-- A finite map modelled as a function; `mapSet` is `Map.prototype.set`. -/
def mapSet {β : Type} (m : ℤ → Option β) (k : ℤ) (v : β) : ℤ → Option β :=
  fun k' => if k' = k then some v else m k'

/-- `Map.prototype.delete`. -/
def mapDel {β : Type} (m : ℤ → Option β) (k : ℤ) : ℤ → Option β :=
  fun k' => if k' = k then none else m k'

/-- The graph's construction inputs (src/unnamed/part_000, constructor):
`nodesData` is a list of `[id, lon, lat]` tuples, `edgesData` a list of
`[from, to, length_nm]` tuples. Tuples of wrong arity are skipped by the
constructor before reaching this shape, so the model starts from the
well-formed tuples. -/
structure Graph (W : Type) where
  nodesData : List (ℤ × ℝ × ℝ)
  edgesData : List (ℤ × ℤ × W)

/-- The `nodesArray` field: one `GraphNode` per node tuple, in input
order (part_000 lines 44-63). -/
def Graph.nodesArray {W : Type} (g : Graph W) : List GraphNode :=
  g.nodesData.map (fun t => ⟨t.1, t.2.2, t.2.1⟩)

/-- The `nodes` map: id to node, later tuples overwriting earlier ones
with the same id, exactly as repeated `Map.set` does. -/
def Graph.nodesMap {W : Type} (g : Graph W) : ℤ → Option GraphNode :=
  g.nodesData.foldl (fun m t => mapSet m t.1 ⟨t.1, t.2.2, t.2.1⟩) (fun _ => none)

/-- `getNode` (part_000 lines 114-116). -/
def Graph.getNode {W : Type} (g : Graph W) (nodeId : ℤ) : Option GraphNode :=
  g.nodesMap nodeId

/-- `getAllNodes` (part_000 lines 123-125). -/
def Graph.getAllNodes {W : Type} (g : Graph W) : List GraphNode :=
  g.nodesArray

/-- Append one adjacency record to one endpoint's list, creating the
list when absent (`if (!has) set([]); get.push(...)`). -/
def adjInsert {W : Type} (m : ℤ → List (AdjacencyEntry W)) (k : ℤ)
    (e : AdjacencyEntry W) : ℤ → List (AdjacencyEntry W) :=
  fun k' => if k' = k then m k' ++ [e] else m k'

/-- The adjacency list built from the edges; each edge tuple inserts the
forward and the reverse record (part_000 lines 78-105). -/
def Graph.adjacency {W : Type} (g : Graph W) : ℤ → List (AdjacencyEntry W) :=
  g.edgesData.foldl
    (fun m t => adjInsert (adjInsert m t.1 ⟨t.2.1, t.2.2⟩) t.2.1 ⟨t.1, t.2.2⟩)
    (fun _ => [])

/-- `getNeighbors` (part_000 lines 133-135); the `|| []` default is part
of the total function model. -/
def Graph.getNeighbors {W : Type} (g : Graph W) (nodeId : ℤ) :
    List (AdjacencyEntry W) :=
  g.adjacency nodeId

/-- Minimum latitude over the node set. The constructor folds `Math.min`
starting from `Infinity`; for a nonempty node list that equals the fold
from the first element, and for the empty list the grid is empty so the
value (0 here, `Infinity` in JS) is never observable. -/
def Graph.minLat {W : Type} (g : Graph W) : ℝ :=
  match g.nodesArray with
  | [] => 0
  | n :: t => t.foldl (fun m x => min m x.lat) n.lat

/-- Maximum latitude over the node set (see `Graph.minLat`). -/
def Graph.maxLat {W : Type} (g : Graph W) : ℝ :=
  match g.nodesArray with
  | [] => 0
  | n :: t => t.foldl (fun m x => max m x.lat) n.lat

/-- Minimum longitude over the node set (see `Graph.minLat`). -/
def Graph.minLon {W : Type} (g : Graph W) : ℝ :=
  match g.nodesArray with
  | [] => 0
  | n :: t => t.foldl (fun m x => min m x.lon) n.lon

/-- Maximum longitude over the node set (see `Graph.minLat`). -/
def Graph.maxLon {W : Type} (g : Graph W) : ℝ :=
  match g.nodesArray with
  | [] => 0
  | n :: t => t.foldl (fun m x => max m x.lon) n.lon

/-- Grid resolution
`ceil (sqrt (ceil (nodeCount / 20)))` (part_000 lines 65-71). -/
noncomputable def Graph.gridResolution {W : Type} (g : Graph W) : ℕ :=
  ⌈Real.sqrt (⌈(g.nodesArray.length : ℝ) / 20⌉₊ : ℝ)⌉₊

/-- `latToGrid` (part_000 lines 188-193): `0` when the latitude range is
degenerate, otherwise `floor (normalized * resolution)`. -/
noncomputable def Graph.latToGrid {W : Type} (g : Graph W) (lat : ℝ) : ℤ :=
  let latRange := g.maxLat - g.minLat
  if latRange = 0 then 0
  else ⌊(lat - g.minLat) / latRange * (g.gridResolution : ℝ)⌋

/-- `lonToGrid` (part_000 lines 201-206). -/
noncomputable def Graph.lonToGrid {W : Type} (g : Graph W) (lon : ℝ) : ℤ :=
  let lonRange := g.maxLon - g.minLon
  if lonRange = 0 then 0
  else ⌊(lon - g.minLon) / lonRange * (g.gridResolution : ℝ)⌋

/-- The grid cell of a node. -/
noncomputable def Graph.cellOf {W : Type} (g : Graph W) (n : GraphNode) : ℤ × ℤ :=
  (g.latToGrid n.lat, g.lonToGrid n.lon)

/-- `buildSpatialGrid` (part_000 lines 167-180): every node is appended
to the bucket of its cell key. -/
noncomputable def Graph.spatialGrid {W : Type} (g : Graph W) :
    ℤ × ℤ → List GraphNode :=
  g.nodesArray.foldl
    (fun grid n => fun key => if key = g.cellOf n then grid key ++ [n] else grid key)
    (fun _ => [])

/-- The integers `-r, ..., r`, the two loop ranges of `getNodesNearby`. -/
def rangeList (r : ℕ) : List ℤ :=
  (List.range (2 * r + 1)).map (fun (i : ℕ) => (i : ℤ) - (r : ℤ))

/-- `getNodesNearby` (part_000 lines 145-162): union of the buckets of
all cells within `searchRadius` of the query's cell in both axes. The
nested push loops are modelled by the nested `bind`. -/
noncomputable def Graph.getNodesNearby {W : Type} (g : Graph W) (lat lon : ℝ)
    (searchRadius : ℕ) : List GraphNode :=
  let gridLat := g.latToGrid lat
  let gridLon := g.lonToGrid lon
  (rangeList searchRadius).flatMap fun dLat =>
    (rangeList searchRadius).flatMap fun dLon =>
      g.spatialGrid (gridLat + dLat, gridLon + dLon)

/-- The linear minimum scan shared by both halves of `findNearestNode`
(src/src/nearest-node.ts lines 33-48 and 52-65): start from the first
element and replace the best on strict improvement. -/
noncomputable def nearestOf (point : Point) (first : GraphNode)
    (rest : List GraphNode) : GraphNode :=
  rest.foldl
    (fun best n =>
      if haversineDistance point n.pt < haversineDistance point best.pt then n
      else best)
    first

/-- The expanding-radius loop of `findNearestNode` (nearest-node.ts
lines 21-30): query radius `r`, and on an empty result move to `r + 1`
while `r ≤ 5`. `remaining` counts the loop entries left (6 at `r = 0`). -/
noncomputable def expandSearch {W : Type} (g : Graph W) (point : Point) :
    ℕ → ℕ → List GraphNode
  | 0, _ => []
  | remaining + 1, r =>
    match g.getNodesNearby point.lat point.lon r with
    | [] => expandSearch g point remaining (r + 1)
    | c :: cs => c :: cs

/-- `findNearestNode` (src/src/nearest-node.ts lines 13-66): grid
candidates when the expanding search finds any, otherwise a full linear
scan; `undefined` only for the empty graph. -/
noncomputable def findNearestNode {W : Type} (g : Graph W) (point : Point) :
    Option GraphNode :=
  match g.getAllNodes with
  | [] => none
  | n0 :: ns =>
    match expandSearch g point 6 0 with
    | [] => some (nearestOf point n0 ns)
    | c0 :: cs => some (nearestOf point c0 cs)

/-- Priority-queue entry for A* (src/unnamed/part_001 lines 9-13 and
207-211): node id, f-cost, g-cost. -/
structure PQEntry (W : Type) where
  nodeId : ℤ
  fCost : W
  gCost : W

/-- A* result: node-id path and total distance (part_001 lines 18-21). -/
structure AStarResult (W : Type) where
  path : List ℤ
  distance : W

/-- The error kinds `findRoute` and `aStar` throw (spec section 7):
empty-graph resolution failure, goal id absent from the graph, no
connecting path, and a path node id absent from the node table. -/
inductive RouteError where
  | noNearest : RouteError
  | goalMissing : ℤ → RouteError
  | noPath : RouteError
  | nodeMissing : ℤ → RouteError
deriving DecidableEq

/-- Route result (src/src/types.ts): the GeoJSON LineString is carried
as its `[lon, lat]` coordinate list. -/
structure RouteResult (W : Type) where
  coordinates : List (ℝ × ℝ)
  distance : W
  waypoints : ℕ

/-- Stable insertion of an entry into a list sorted ascending by
f-cost. -/
def insertByF {W : Type} [LinearOrder W] (e : PQEntry W) :
    List (PQEntry W) → List (PQEntry W)
  | [] => [e]
  | x :: xs => if x.fCost ≤ e.fCost then x :: insertByF e xs else e :: x :: xs

/-- Stable ascending sort by f-cost, the observable behaviour of
`openSet.sort((a, b) => a.fCost - b.fCost)` (part_001 line 106). -/
def sortByF {W : Type} [LinearOrder W] : List (PQEntry W) → List (PQEntry W)
  | [] => []
  | x :: xs => insertByF x (sortByF xs)

/-- First adjacency record from `u` to `v`, the lookup
`graph.getNeighbors(path[i]).find((n) => n.nodeId === nextNodeId)`
(part_001 lines 121-123). -/
def findEdge {W : Type} (g : Graph W) (u v : ℤ) : Option (AdjacencyEntry W) :=
  (g.getNeighbors u).find? (fun e => e.nodeId == v)

/-- The total-distance recomputation over a reconstructed path
(part_001 lines 118-127): sum the looked-up edge weight of each
consecutive pair, silently skipping pairs with no edge. -/
def pathDistance {W : Type} [LinearOrderedAddCommMonoid W] (g : Graph W)
    (path : List ℤ) : W :=
  (path.zip path.tail).foldl
    (fun acc uv =>
      match findEdge g uv.1 uv.2 with
      | some e => acc + e.distance
      | none => acc)
    0

/-- Path reconstruction by walking parent links backward from the goal
(part_001 lines 111-116), fuelled because the JS `while` is unbounded. -/
def walkParent : ℕ → (ℤ → Option ℤ) → ℤ → Option (List ℤ)
  | 0, _, _ => none
  | fuel + 1, parent, cur =>
    match parent cur with
    | none => some [cur]
    | some pr => (walkParent fuel parent pr).map (fun l => l ++ [cur])

/-- The A* working state: open set, closed set, g-cost map and parent
map (part_001 lines 91-102). -/
structure AStarState (W : Type) where
  openSet : List (PQEntry W)
  closed : List ℤ
  gCost : ℤ → Option W
  parent : ℤ → Option ℤ

/-- The open-set insertion of the relaxation (part_001 lines 157-163):
append a fresh entry when the node id is absent, overwrite the existing
entry in place when the new f-cost is strictly better, else leave the
open set unchanged. -/
def openSetInsert {W : Type} [LinearOrderedAddCommMonoid W]
    (openSet : List (PQEntry W)) (nodeId : ℤ) (fCost gCost : W) :
    List (PQEntry W) :=
  match openSet.findIdx? (fun e => e.nodeId == nodeId) with
  | none => openSet ++ [⟨nodeId, fCost, gCost⟩]
  | some i =>
    match openSet[i]? with
    | none => openSet
    | some old =>
      if fCost < old.fCost then openSet.set i ⟨nodeId, fCost, gCost⟩
      else openSet

/-- Relaxation of one neighbor of `current` (part_001 lines 136-165):
skip closed nodes, on a strict g-improvement record parent and g-cost,
then (if the neighbor node exists) insert into or improve the open set. -/
def relaxNeighbor {W : Type} [LinearOrderedAddCommMonoid W] (g : Graph W)
    (hdist : GraphNode → GraphNode → W) (goalNode : GraphNode)
    (current : PQEntry W) (st : AStarState W) (nb : AdjacencyEntry W) :
    AStarState W :=
  if st.closed.contains nb.nodeId then st
  else
    let tentativeGCost := current.gCost + nb.distance
    let improves :=
      match st.gCost nb.nodeId with
      | none => true
      | some e => decide (tentativeGCost < e)
    if improves then
      let parent' := mapSet st.parent nb.nodeId current.nodeId
      let gCost' := mapSet st.gCost nb.nodeId tentativeGCost
      match g.getNode nb.nodeId with
      | none => ⟨st.openSet, st.closed, gCost', parent'⟩
      | some neighborNode =>
        ⟨openSetInsert st.openSet nb.nodeId
            (tentativeGCost + hdist neighborNode goalNode) tentativeGCost,
          st.closed, gCost', parent'⟩
    else st

/-- The A* main loop (part_001 lines 104-166), fuelled: pop the entry
with least f-cost; at the goal reconstruct the path and recompute its
distance; otherwise close the node and relax all its neighbors. -/
def aStarLoop {W : Type} [LinearOrderedAddCommMonoid W] (g : Graph W)
    (hdist : GraphNode → GraphNode → W) (goalId : ℤ) (goalNode : GraphNode) :
    ℕ → AStarState W → Option (AStarResult W)
  | 0, _ => none
  | fuel + 1, st =>
    match sortByF st.openSet with
    | [] => some ⟨[], 0⟩
    | current :: rest =>
      if current.nodeId = goalId then
        match walkParent (fuel + 1) st.parent goalId with
        | none => none
        | some path => some ⟨path, pathDistance g path⟩
      else
        let closed' := current.nodeId :: st.closed
        aStarLoop g hdist goalId goalNode fuel
          ((g.getNeighbors current.nodeId).foldl
            (relaxNeighbor g hdist goalNode current)
            ⟨rest, closed', st.gCost, st.parent⟩)

/-- `aStar` (part_001 lines 85-170): hard error when the goal id is
absent, otherwise the fuelled loop started from `startId` with zero
costs. `hdist` is the heuristic the code fixes to `haversineDistance`;
it is a parameter so that runs can be evaluated on discrete cost
types. -/
def aStar {W : Type} [LinearOrderedAddCommMonoid W] (fuel : ℕ) (g : Graph W)
    (hdist : GraphNode → GraphNode → W) (startId goalId : ℤ) :
    Option (Except RouteError (AStarResult W)) :=
  match g.getNode goalId with
  | none => some (.error (.goalMissing goalId))
  | some goalNode =>
    (aStarLoop g hdist goalId goalNode fuel
      ⟨[⟨startId, 0, 0⟩], [], mapSet (fun _ => none) startId 0,
        fun _ => none⟩).map .ok

/-- Map a node-id path to `[lon, lat]` coordinates (part_001 lines
59-65), failing hard on a missing id. -/
def coordsOf {W : Type} (g : Graph W) :
    List ℤ → Except RouteError (List (ℝ × ℝ))
  | [] => .ok []
  | id :: rest =>
    match g.getNode id with
    | none => .error (.nodeMissing id)
    | some n => (coordsOf g rest).map (fun cs => (n.lon, n.lat) :: cs)

/-- `findRoute` (part_001 lines 32-75): resolve both endpoints,
short-circuit on an identical nearest node, otherwise run A*, reject an
empty path, and map the path to coordinates. `none` means the fuel ran
out, which has no counterpart in the source's unbounded loop. -/
noncomputable def findRoute {W : Type} [LinearOrderedAddCommMonoid W]
    (fuel : ℕ) (g : Graph W) (hdist : GraphNode → GraphNode → W)
    (origin destination : Point) :
    Option (Except RouteError (RouteResult W)) :=
  match findNearestNode g origin, findNearestNode g destination with
  | some startNode, some endNode =>
    if startNode.id = endNode.id then
      some (.ok ⟨[(startNode.lon, startNode.lat)], 0, 1⟩)
    else
      match aStar fuel g hdist startNode.id endNode.id with
      | none => none
      | some (.error e) => some (.error e)
      | some (.ok r) =>
        if r.path.isEmpty then some (.error .noPath)
        else
          match coordsOf g r.path with
          | .error e => some (.error e)
          | .ok coords => some (.ok ⟨coords, r.distance, r.path.length⟩)
  | _, _ => some (.error .noNearest)

/-- `findDistance` (src/unnamed/part_003 lines 60-63): the distance
component of `findRoute`. -/
noncomputable def findDistance {W : Type} [LinearOrderedAddCommMonoid W]
    (fuel : ℕ) (g : Graph W) (hdist : GraphNode → GraphNode → W)
    (origin destination : Point) : Option (Except RouteError W) :=
  (findRoute fuel g hdist origin destination).map
    (Except.map RouteResult.distance)

/-- The indexed binary min-heap (src/unnamed/part_001 lines 217-392):
heap array plus the node-id-to-index side map. Generic in the cost type
so that concrete runs can be evaluated discretely; the program uses JS
numbers. -/
structure PriorityQueue (W : Type) where
  heap : List (PQEntry W)
  nodeIdToIndex : ℤ → Option ℕ

/-- The `constructor` (part_001 lines 221-224). -/
def PriorityQueue.empty (W : Type) : PriorityQueue W :=
  ⟨[], fun _ => none⟩

/-- A map from ids to heap positions, modelled as a function. -/
def idxSet (m : ℤ → Option ℕ) (k : ℤ) (v : ℕ) : ℤ → Option ℕ :=
  fun k' => if k' = k then some v else m k'

/-- `Map.prototype.delete` on the index map. -/
def idxDel (m : ℤ → Option ℕ) (k : ℤ) : ℤ → Option ℕ :=
  fun k' => if k' = k then none else m k'

/-- `swap` (part_001 lines 384-391): exchange two heap slots and point
the index map at the new positions. Out-of-range indices (impossible at
every call site under the queue invariant) leave the queue unchanged. -/
def PriorityQueue.swap {W : Type} (q : PriorityQueue W) (i j : ℕ) :
    PriorityQueue W :=
  match q.heap[i]?, q.heap[j]? with
  | some a, some b =>
    ⟨(q.heap.set i b).set j a,
      idxSet (idxSet q.nodeIdToIndex b.nodeId i) a.nodeId j⟩
  | _, _ => q

theorem PriorityQueue.swap_heap_length {W : Type} (q : PriorityQueue W)
    (i j : ℕ) : (q.swap i j).heap.length = q.heap.length := by
  unfold PriorityQueue.swap
  cases hi : q.heap[i]? with
  | none => rfl
  | some a =>
    cases hj : q.heap[j]? with
    | none => rfl
    | some b => simp

/-- `bubbleUp` (part_001 lines 337-348): while not at the root, stop as
soon as the parent's f-cost is not larger, else swap with the parent and
continue there. -/
def PriorityQueue.bubbleUp {W : Type} [LinearOrder W] (q : PriorityQueue W)
    (i : ℕ) : PriorityQueue W :=
  if h : i = 0 then q
  else
    match q.heap[i]?, q.heap[(i - 1) / 2]? with
    | some ei, some ep =>
      if ep.fCost ≤ ei.fCost then q
      else PriorityQueue.bubbleUp (q.swap i ((i - 1) / 2)) ((i - 1) / 2)
    | _, _ => q
termination_by i
decreasing_by omega

/-- The `smallest` update step of `bubbleDown` (part_001 lines 361-367):
take the candidate child when it is in range and strictly smaller. -/
def childMin {W : Type} [LinearOrder W] (q : PriorityQueue W) (c cur : ℕ) : ℕ :=
  match q.heap[c]?, q.heap[cur]? with
  | some ec, some ecur => if ec.fCost < ecur.fCost then c else cur
  | _, _ => cur

theorem childMin_ne {W : Type} [LinearOrder W] {q : PriorityQueue W}
    {c cur : ℕ} (h : childMin q c cur ≠ cur) :
    childMin q c cur = c ∧ c < q.heap.length := by
  unfold childMin at h ⊢
  cases hc : q.heap[c]? with
  | none => simp [hc] at h
  | some ec =>
    cases hcur : q.heap[cur]? with
    | none => simp [hc, hcur] at h
    | some ecur =>
      simp only [hc, hcur] at h ⊢
      by_cases hlt : ec.fCost < ecur.fCost
      · exact ⟨by simp [hlt], (List.getElem?_eq_some_iff.mp hc).1⟩
      · simp [hlt] at h

/-- Arithmetic facts about the combined `smallest` selection: when it is
not the node itself it is a strictly larger in-range child index. -/
theorem childMin2_ne {W : Type} [LinearOrder W] {q : PriorityQueue W} {i : ℕ}
    (h : childMin q (2 * i + 2) (childMin q (2 * i + 1) i) ≠ i) :
    i < childMin q (2 * i + 2) (childMin q (2 * i + 1) i) ∧
      childMin q (2 * i + 2) (childMin q (2 * i + 1) i) < q.heap.length := by
  by_cases hne : childMin q (2 * i + 2) (childMin q (2 * i + 1) i) =
      childMin q (2 * i + 1) i
  · rw [hne] at h ⊢
    obtain ⟨h1, h2⟩ := childMin_ne h
    omega
  · obtain ⟨h1, h2⟩ := childMin_ne hne
    omega

/-- `bubbleDown` (part_001 lines 355-376): find the smallest of the node
and its two children, stop when it is the node itself, else swap and
continue from the child's slot. -/
def PriorityQueue.bubbleDown {W : Type} [LinearOrder W] (q : PriorityQueue W)
    (i : ℕ) : PriorityQueue W :=
  let s := childMin q (2 * i + 2) (childMin q (2 * i + 1) i)
  if h : s = i then q
  else PriorityQueue.bubbleDown (q.swap i s) s
termination_by q.heap.length - i
decreasing_by
  have hb := childMin2_ne h
  rw [PriorityQueue.swap_heap_length]
  omega

/-- `push` (part_001 lines 231-245): an already-present node id is
routed to `update`; otherwise append at the end, record the index, and
bubble up. -/
def PriorityQueue.update {W : Type} [LinearOrder W] (q : PriorityQueue W)
    (nodeId : ℤ) (newFCost newGCost : W) : Bool × PriorityQueue W :=
  match q.nodeIdToIndex nodeId with
  | none => (false, q)
  | some i =>
    match q.heap[i]? with
    | none => (false, q)
    | some old =>
      let q' : PriorityQueue W :=
        ⟨q.heap.set i ⟨old.nodeId, newFCost, newGCost⟩, q.nodeIdToIndex⟩
      if newFCost < old.fCost then (true, q'.bubbleUp i)
      else if old.fCost < newFCost then (true, q'.bubbleDown i)
      else (true, q')

/-- `push` (part_001 lines 231-245). -/
def PriorityQueue.push {W : Type} [LinearOrder W] (q : PriorityQueue W)
    (entry : PQEntry W) : PriorityQueue W :=
  match q.nodeIdToIndex entry.nodeId with
  | some _ => (q.update entry.nodeId entry.fCost entry.gCost).2
  | none =>
    let q' : PriorityQueue W :=
      ⟨q.heap ++ [entry],
        idxSet q.nodeIdToIndex entry.nodeId q.heap.length⟩
    q'.bubbleUp (q'.heap.length - 1)

/-- `pop` (part_001 lines 252-274): empty and single-element cases, else
move the last entry to the root, fix the index map, and bubble down. -/
def PriorityQueue.pop {W : Type} [LinearOrder W] (q : PriorityQueue W) :
    Option (PQEntry W) × PriorityQueue W :=
  match q.heap with
  | [] => (none, q)
  | [e] => (some e, ⟨[], idxDel q.nodeIdToIndex e.nodeId⟩)
  | e0 :: e1 :: rest =>
    let root := e0
    let last := (e1 :: rest).getLast (List.cons_ne_nil e1 rest)
    let q' : PriorityQueue W :=
      ⟨((e0 :: e1 :: rest).dropLast).set 0 last,
        idxDel (idxSet q.nodeIdToIndex last.nodeId 0) root.nodeId⟩
    (some root, q'.bubbleDown 0)

/-- `has` (part_001 lines 319-321). -/
def PriorityQueue.has {W : Type} (q : PriorityQueue W) (nodeId : ℤ) : Bool :=
  (q.nodeIdToIndex nodeId).isSome

/-- `isEmpty` (part_001 lines 328-330). -/
def PriorityQueue.isEmpty {W : Type} (q : PriorityQueue W) : Bool :=
  q.heap.isEmpty

/-- `peek` (part_001 lines 281-283). -/
def PriorityQueue.peek {W : Type} (q : PriorityQueue W) : Option (PQEntry W) :=
  q.heap[0]?

/-- The haversine `a` term is symmetric in its two points. -/
theorem haversineA_comm (p q : Point) : haversineA p q = haversineA q p := by
  simp only [haversineA, toRadians]
  have h : ∀ a b : ℝ,
      Real.sin ((a - b) * (Real.pi / 180) / 2) =
        -Real.sin ((b - a) * (Real.pi / 180) / 2) := by
    intro a b
    rw [show (a - b) * (Real.pi / 180) / 2 =
        -((b - a) * (Real.pi / 180) / 2) by ring, Real.sin_neg]
  rw [h q.lat p.lat, h q.lon p.lon]
  ring

/-- The central angle is symmetric in its two points. -/
theorem haversineC_comm (p q : Point) : haversineC p q = haversineC q p := by
  unfold haversineC
  rw [haversineA_comm]

/-- `Math.atan2` is nonnegative on nonnegative arguments. -/
theorem atan2_nonneg {y x : ℝ} (hy : 0 ≤ y) (hx : 0 ≤ x) : 0 ≤ atan2 y x := by
  unfold atan2
  rcases lt_or_eq_of_le hx with hx' | hx'
  · rw [if_pos hx']
    rw [show (0 : ℝ) = Real.arctan 0 from Real.arctan_zero.symm]
    exact Real.arctan_strictMono.monotone (div_nonneg hy (le_of_lt hx'))
  · rw [if_neg (by rw [← hx']; exact lt_irrefl 0),
      if_neg (by rw [← hx']; exact lt_irrefl 0)]
    rcases lt_or_eq_of_le hy with hy' | hy'
    · rw [if_pos hy']
      positivity
    · rw [if_neg (by rw [← hy']; exact lt_irrefl 0),
        if_neg (by rw [← hy']; exact lt_irrefl 0)]

/-- The central angle is nonnegative. -/
theorem haversineC_nonneg (p q : Point) : 0 ≤ haversineC p q := by
  unfold haversineC
  have := atan2_nonneg (Real.sqrt_nonneg (haversineA p q))
    (Real.sqrt_nonneg (1 - haversineA p q))
  linarith

/-- C9: `haversineDistance` is symmetric and nonnegative
(src/src/heuristics.ts lines 20-33; spec sections 4.1 and 8). -/
theorem haversineDistance_symm_nonneg (a b : Point) :
    haversineDistance a b = haversineDistance b a ∧
      0 ≤ haversineDistance a b := by
  constructor
  · unfold haversineDistance
    rw [haversineC_comm]
  · unfold haversineDistance EARTH_RADIUS_NM
    have := haversineC_nonneg a b
    nlinarith

/-- C10 counterexample: at `(0, 0)` and `(0, 180)` the two haversine
implementations disagree, because src/src/heuristics.ts multiplies the
shared central angle by 3443.918 while src/unnamed/part_002 multiplies
it by 3440.065. -/
theorem haversine_impls_differ :
    haversineDistance ⟨0, 0⟩ ⟨0, 180⟩ ≠
      haversineDistanceLegacy ⟨0, 0⟩ ⟨0, 180⟩ := by
  have hA : haversineA ⟨0, 0⟩ ⟨0, 180⟩ = 1 := by
    simp only [haversineA, toRadians]
    norm_num
    rw [show (180 : ℝ) * (Real.pi / 180) / 2 = Real.pi / 2 by ring]
    simp [Real.sin_pi_div_two]
  have hC : haversineC ⟨0, 0⟩ ⟨0, 180⟩ = Real.pi := by
    unfold haversineC
    rw [hA]
    norm_num
    unfold atan2
    norm_num
    ring
  unfold haversineDistance haversineDistanceLegacy EARTH_RADIUS_NM
    EARTH_RADIUS_NM_LEGACY
  rw [hC]
  intro h
  have h2 : (3443.918 : ℝ) = 3440.065 :=
    mul_right_cancel₀ Real.pi_ne_zero h
  norm_num at h2

/-- C10 amended: the two implementations compute the same central angle
and differ exactly by their Earth-radius constants, so they are
proportional with ratio `3443.918 / 3440.065`. -/
theorem haversine_impls_proportional (p q : Point) :
    EARTH_RADIUS_NM_LEGACY * haversineDistance p q =
      EARTH_RADIUS_NM * haversineDistanceLegacy p q := by
  unfold haversineDistance haversineDistanceLegacy
  ring

/-- `hasEdge m A B w`: the adjacency map `m` records an entry `A → B`
with weight `w`. -/
def hasEdge {W : Type} (m : ℤ → List (AdjacencyEntry W)) (A B : ℤ) (w : W) :
    Prop :=
  ∃ e ∈ m A, e.nodeId = B ∧ e.distance = w

theorem adjInsert_mem {W : Type} (m : ℤ → List (AdjacencyEntry W)) (k : ℤ)
    (a e' : AdjacencyEntry W) (k' : ℤ) :
    e' ∈ adjInsert m k a k' ↔ e' ∈ m k' ∨ (k' = k ∧ e' = a) := by
  unfold adjInsert
  by_cases h : k' = k <;> simp [h]

theorem hasEdge_adjInsert {W : Type} (m : ℤ → List (AdjacencyEntry W))
    (k : ℤ) (a : AdjacencyEntry W) (A B : ℤ) (w : W) :
    hasEdge (adjInsert m k a) A B w ↔
      hasEdge m A B w ∨ (A = k ∧ a.nodeId = B ∧ a.distance = w) := by
  unfold hasEdge
  simp only [adjInsert_mem]
  constructor
  · rintro ⟨e, he | ⟨hk, rfl⟩, hq⟩
    · exact Or.inl ⟨e, he, hq⟩
    · exact Or.inr ⟨hk, hq⟩
  · intro rer
    rcases rer with ⟨e, he, hq⟩ | ⟨hk, hq⟩
    · exact ⟨e, Or.inl he, hq⟩
    · exact ⟨a, Or.inr ⟨hk, rfl⟩, hq⟩

theorem adjacency_symm_aux {W : Type} (l : List (ℤ × ℤ × W)) :
    ∀ m : ℤ → List (AdjacencyEntry W),
      (∀ A B w, hasEdge m A B w ↔ hasEdge m B A w) →
      ∀ A B w,
        hasEdge
          (l.foldl
            (fun m t =>
              adjInsert (adjInsert m t.1 ⟨t.2.1, t.2.2⟩) t.2.1 ⟨t.1, t.2.2⟩)
            m) A B w ↔
        hasEdge
          (l.foldl
            (fun m t =>
              adjInsert (adjInsert m t.1 ⟨t.2.1, t.2.2⟩) t.2.1 ⟨t.1, t.2.2⟩)
            m) B A w := by
  induction l with
  | nil => intro m hm A B w; exact hm A B w
  | cons t rest ih =>
    intro m hm A B w
    simp only [List.foldl_cons]
    apply ih
    intro A' B' w'
    simp only [hasEdge_adjInsert]
    rw [hm A' B' w']
    tauto

/-- C7: adjacency is symmetric after construction — `A → B` with weight
`w` is recorded exactly when `B → A` with weight `w` is, regardless of
the direction of the source edge tuple (part_000 lines 78-105,
src/src/graph.ts lines 41-68). -/
theorem adjacency_symmetric {W : Type} (g : Graph W) (A B : ℤ) (w : W) :
    (∃ e ∈ g.getNeighbors A, e.nodeId = B ∧ e.distance = w) ↔
      (∃ e ∈ g.getNeighbors B, e.nodeId = A ∧ e.distance = w) := by
  have h := adjacency_symm_aux g.edgesData (fun _ => [])
    (by intro A' B' w'; simp [hasEdge]) A B w
  exact h

theorem spatialGrid_fold_mem {W : Type} (g : Graph W) (l : List GraphNode)
    (n : GraphNode) (key : ℤ × ℤ) :
    ∀ grid0 : ℤ × ℤ → List GraphNode,
      n ∈ (l.foldl
          (fun grid x => fun k =>
            if k = g.cellOf x then grid k ++ [x] else grid k)
          grid0) key ↔
        n ∈ grid0 key ∨ (n ∈ l ∧ key = g.cellOf n) := by
  induction l with
  | nil => intro grid0; simp
  | cons x rest ih =>
    intro grid0
    simp only [List.foldl_cons, ih, List.mem_cons]
    by_cases hk : key = g.cellOf x
    · subst hk
      constructor
      · rintro (h | h)
        · simp at h
          rcases h with h | rfl
          · exact Or.inl h
          · exact Or.inr ⟨Or.inl rfl, rfl⟩
        · exact Or.inr ⟨Or.inr h.1, h.2⟩
      · rintro (h | ⟨h1 | h1, h2⟩)
        · exact Or.inl (by simp [h])
        · subst h1; exact Or.inl (by simp)
        · exact Or.inr ⟨h1, h2⟩
    · rw [if_neg hk]
      constructor
      · rintro (h | h)
        · exact Or.inl h
        · exact Or.inr ⟨Or.inr h.1, h.2⟩
      · rintro (h | ⟨h1 | h1, h2⟩)
        · exact Or.inl h
        · subst h1; exact absurd h2 hk
        · exact Or.inr ⟨h1, h2⟩

/-- Membership in a spatial-grid bucket is membership in the node set
with a matching cell. -/
theorem spatialGrid_mem {W : Type} (g : Graph W) (n : GraphNode)
    (key : ℤ × ℤ) :
    n ∈ g.spatialGrid key ↔ n ∈ g.nodesArray ∧ key = g.cellOf n := by
  unfold Graph.spatialGrid
  rw [spatialGrid_fold_mem]
  simp

theorem rangeList_mem (r : ℕ) (d : ℤ) :
    d ∈ rangeList r ↔ -(r : ℤ) ≤ d ∧ d ≤ (r : ℤ) := by
  unfold rangeList
  rw [List.mem_map]
  constructor
  · rintro ⟨i, hi, rfl⟩
    rw [List.mem_range] at hi
    omega
  · intro h
    refine ⟨(d + r).toNat, ?_, ?_⟩
    · rw [List.mem_range]
      omega
    · omega

/-- C6: `getNodesNearby` returns exactly the union of the grid buckets
in the `(2r+1) × (2r+1)` block centered on the query's cell, where the
cell index on each axis is `floor (resolution * (coord - min) / range)`
and `0` on a zero-extent axis (part_000 lines 145-162 and 188-206). -/
theorem getNodesNearby_block_union {W : Type} (g : Graph W) (lat lon : ℝ)
    (r : ℕ) (n : GraphNode) :
    (n ∈ g.getNodesNearby lat lon r ↔
      ∃ i j : ℤ, |i - g.latToGrid lat| ≤ (r : ℤ) ∧
        |j - g.lonToGrid lon| ≤ (r : ℤ) ∧ n ∈ g.spatialGrid (i, j)) ∧
      (g.maxLat - g.minLat = 0 → g.latToGrid lat = 0) ∧
      (g.maxLat - g.minLat ≠ 0 →
        g.latToGrid lat =
          ⌊(lat - g.minLat) / (g.maxLat - g.minLat) * (g.gridResolution : ℝ)⌋) ∧
      (g.maxLon - g.minLon = 0 → g.lonToGrid lon = 0) ∧
      (g.maxLon - g.minLon ≠ 0 →
        g.lonToGrid lon =
          ⌊(lon - g.minLon) / (g.maxLon - g.minLon) * (g.gridResolution : ℝ)⌋) := by
  refine ⟨?_, ?_, ?_, ?_, ?_⟩
  · unfold Graph.getNodesNearby
    simp only [List.mem_flatMap, rangeList_mem]
    constructor
    · rintro ⟨dLat, hd1, dLon, hd2, hmem⟩
      refine ⟨g.latToGrid lat + dLat, g.lonToGrid lon + dLon, ?_, ?_, hmem⟩
      · rw [abs_le]; omega
      · rw [abs_le]; omega
    · rintro ⟨i, j, hi, hj, hmem⟩
      rw [abs_le] at hi hj
      exact ⟨i - g.latToGrid lat, by omega, j - g.lonToGrid lon, by omega,
        by simpa using hmem⟩
  · intro h; unfold Graph.latToGrid; rw [if_pos h]
  · intro h; unfold Graph.latToGrid; rw [if_neg h]
  · intro h; unfold Graph.lonToGrid; rw [if_pos h]
  · intro h; unfold Graph.lonToGrid; rw [if_neg h]

theorem nearestOf_mem (p : Point) (rest : List GraphNode) :
    ∀ first, nearestOf p first rest ∈ first :: rest := by
  induction rest with
  | nil => intro first; simp [nearestOf]
  | cons x xs ih =>
    intro first
    unfold nearestOf
    rw [List.foldl_cons]
    by_cases h : haversineDistance p x.pt < haversineDistance p first.pt
    · rw [if_pos h]
      have := ih x
      simp only [List.mem_cons] at this ⊢
      unfold nearestOf at this
      tauto
    · rw [if_neg h]
      have := ih first
      simp only [List.mem_cons] at this ⊢
      unfold nearestOf at this
      tauto

theorem nearestOf_min (p : Point) (rest : List GraphNode) :
    ∀ first m, m ∈ first :: rest →
      haversineDistance p (nearestOf p first rest).pt ≤
        haversineDistance p m.pt := by
  induction rest with
  | nil =>
    intro first m hm
    simp at hm
    rw [hm]
    simp [nearestOf]
  | cons x xs ih =>
    intro first m hm
    unfold nearestOf
    rw [List.foldl_cons]
    simp only [List.mem_cons] at hm
    by_cases h : haversineDistance p x.pt < haversineDistance p first.pt
    · rw [if_pos h]
      rcases hm with h1 | h1 | h1
      · rw [h1]
        calc haversineDistance p (nearestOf p x xs).pt ≤
              haversineDistance p x.pt := ih x x (by simp)
          _ ≤ haversineDistance p first.pt := le_of_lt h
      · rw [h1]
        exact ih x x (by simp)
      · exact ih x m (by simp [h1])
    · rw [if_neg h]
      rcases hm with h1 | h1 | h1
      · rw [h1]
        exact ih first first (by simp)
      · rw [h1]
        calc haversineDistance p (nearestOf p first xs).pt ≤
              haversineDistance p first.pt := ih first first (by simp)
          _ ≤ haversineDistance p x.pt := le_of_not_lt h
      · exact ih first m (by simp [h1])

theorem expandSearch_spec {W : Type} (g : Graph W) (p : Point) :
    ∀ remaining r : ℕ,
      expandSearch g p remaining r = [] ∨
      ∃ k, r ≤ k ∧ k < r + remaining ∧
        expandSearch g p remaining r = g.getNodesNearby p.lat p.lon k ∧
        (∀ j, r ≤ j → j < k → g.getNodesNearby p.lat p.lon j = []) := by
  intro remaining
  induction remaining with
  | zero => intro r; left; rfl
  | succ m ih =>
    intro r
    cases hc : g.getNodesNearby p.lat p.lon r with
    | nil =>
      have he : expandSearch g p (m + 1) r = expandSearch g p m (r + 1) := by
        conv_lhs => rw [expandSearch, hc]
      rcases ih (r + 1) with h | ⟨k, hk1, hk2, hk3, hk4⟩
      · left
        rw [he]
        exact h
      · right
        refine ⟨k, by omega, by omega, by rw [he]; exact hk3, ?_⟩
        intro j hj1 hj2
        rcases Nat.eq_or_lt_of_le hj1 with rfl | hj
        · exact hc
        · exact hk4 j (by omega) hj2
    | cons c cs =>
      right
      refine ⟨r, le_refl r, by omega, ?_, fun j hj1 hj2 => absurd hj1 (by omega)⟩
      conv_lhs => rw [expandSearch, hc]
      rw [hc]

theorem getNodesNearby_subset {W : Type} (g : Graph W) (lat lon : ℝ) (r : ℕ)
    (n : GraphNode) (h : n ∈ g.getNodesNearby lat lon r) :
    n ∈ g.nodesArray := by
  unfold Graph.getNodesNearby at h
  simp only [List.mem_flatMap] at h
  obtain ⟨dLat, _, dLon, _, hmem⟩ := h
  exact ((spatialGrid_mem g n _).mp hmem).1

theorem expandSearch_subset {W : Type} (g : Graph W) (p : Point)
    (remaining r : ℕ) (n : GraphNode)
    (h : n ∈ expandSearch g p remaining r) : n ∈ g.nodesArray := by
  rcases expandSearch_spec g p remaining r with hs | ⟨k, _, _, hs, _⟩
  · rw [hs] at h
    exact absurd h (List.not_mem_nil n)
  · rw [hs] at h
    exact getNodesNearby_subset g p.lat p.lon k n h

/-- Every node returned by `findNearestNode` is one of the graph's
nodes. -/
theorem findNearestNode_mem {W : Type} (g : Graph W) (p : Point)
    (n : GraphNode) (h : findNearestNode g p = some n) :
    n ∈ g.nodesArray := by
  unfold findNearestNode at h
  cases hg : g.getAllNodes with
  | nil => rw [hg] at h; exact absurd h (by simp)
  | cons n0 ns =>
    rw [hg] at h
    have hga : g.nodesArray = n0 :: ns := hg
    cases hc : expandSearch g p 6 0 with
    | nil =>
      rw [hc] at h
      simp only [Option.some.injEq] at h
      rw [← h, hga]
      exact nearestOf_mem p ns n0
    | cons c0 cs =>
      rw [hc] at h
      simp only [Option.some.injEq] at h
      refine expandSearch_subset g p 6 0 n ?_
      rw [hc, ← h]
      exact nearestOf_mem p cs c0

/-- C4: `findNearestNode` returns `undefined` exactly for the empty
graph; on a nonempty graph it returns a node drawn from the grid
candidates found by expanding the radius from 0 to at most 5 (the first
nonempty radius), or from the full node list when every radius up to 5
was empty (src/src/nearest-node.ts lines 13-66). -/
theorem findNearestNode_total {W : Type} (g : Graph W) (p : Point) :
    (findNearestNode g p = none ↔ g.getAllNodes = []) ∧
      (g.getAllNodes ≠ [] →
        ∃ n, findNearestNode g p = some n ∧
          ((expandSearch g p 6 0 ≠ [] ∧ n ∈ expandSearch g p 6 0 ∧
              ∃ r ≤ 5, expandSearch g p 6 0 = g.getNodesNearby p.lat p.lon r ∧
                ∀ j < r, g.getNodesNearby p.lat p.lon j = []) ∨
            (expandSearch g p 6 0 = [] ∧ n ∈ g.getAllNodes))) := by
  constructor
  · unfold findNearestNode
    cases hg : g.getAllNodes with
    | nil => simp
    | cons n0 ns =>
      cases hc : expandSearch g p 6 0 <;> simp
  · intro hne
    unfold findNearestNode
    cases hg : g.getAllNodes with
    | nil => exact absurd hg hne
    | cons n0 ns =>
      cases hc : expandSearch g p 6 0 with
      | nil =>
        exact ⟨nearestOf p n0 ns, rfl, Or.inr ⟨rfl, nearestOf_mem p ns n0⟩⟩
      | cons c0 cs =>
        refine ⟨nearestOf p c0 cs, rfl,
          Or.inl ⟨by simp, nearestOf_mem p cs c0, ?_⟩⟩
        rcases expandSearch_spec g p 6 0 with hs | ⟨k, _, hk2, hs, hall⟩
        · rw [hs] at hc
          exact absurd hc (by simp)
        · rw [hc] at hs
          exact ⟨k, by omega, hs, fun j hj => hall j (by omega) hj⟩

theorem expandSearch_eq_nil {W : Type} (g : Graph W) (p : Point) :
    ∀ remaining r : ℕ,
      (∀ j, r ≤ j → j < r + remaining →
        g.getNodesNearby p.lat p.lon j = []) →
      expandSearch g p remaining r = [] := by
  intro remaining
  induction remaining with
  | zero => intro r _; rfl
  | succ m ih =>
    intro r h
    have hc : g.getNodesNearby p.lat p.lon r = [] := h r le_rfl (by omega)
    have he : expandSearch g p (m + 1) r = expandSearch g p m (r + 1) := by
      conv_lhs => rw [expandSearch, hc]
    rw [he]
    exact ih (r + 1) (fun j hj1 hj2 => h j (by omega) (by omega))

theorem expandSearch_found {W : Type} (g : Graph W) (p : Point) (m r : ℕ)
    (c : GraphNode) (cs : List GraphNode)
    (hc : g.getNodesNearby p.lat p.lon r = c :: cs) :
    expandSearch g p (m + 1) r = c :: cs := by
  conv_lhs => rw [expandSearch, hc]

/-- Strict monotonicity of the central-angle formula in the `a` term on
`[0, 1)`. -/
theorem atan2_sqrt_strict_mono {a b : ℝ} (ha : 0 ≤ a) (hab : a < b)
    (hb : b < 1) :
    2 * atan2 (Real.sqrt a) (Real.sqrt (1 - a)) <
      2 * atan2 (Real.sqrt b) (Real.sqrt (1 - b)) := by
  have hx1 : 0 < Real.sqrt (1 - a) := Real.sqrt_pos.mpr (by linarith)
  have hx2 : 0 < Real.sqrt (1 - b) := Real.sqrt_pos.mpr (by linarith)
  unfold atan2
  rw [if_pos hx1, if_pos hx2]
  have harg : Real.sqrt a / Real.sqrt (1 - a) <
      Real.sqrt b / Real.sqrt (1 - b) := by
    apply div_lt_div (Real.sqrt_lt_sqrt ha hab)
      (Real.sqrt_le_sqrt (by linarith)) (Real.sqrt_nonneg b) hx2
  have := Real.arctan_strictMono harg
  linarith

/-- C3 amended: on an all-one-latitude graph, whenever the grid search
finds no candidates at any radius up to 5 (so the linear-scan fallback
runs), `findNearestNode` returns a globally nearest node by haversine
distance (src/src/nearest-node.ts lines 50-65). -/
theorem findNearestNode_fallback_global {W : Type} (g : Graph W) (p : Point)
    (lat0 : ℝ) (hlat : ∀ n ∈ g.getAllNodes, n.lat = lat0)
    (hne : g.getAllNodes ≠ []) (hfall : expandSearch g p 6 0 = []) :
    ∃ n, findNearestNode g p = some n ∧
      ∀ m ∈ g.getAllNodes,
        haversineDistance p n.pt ≤ haversineDistance p m.pt := by
  unfold findNearestNode
  cases hg : g.getAllNodes with
  | nil => exact absurd hg hne
  | cons n0 ns =>
    rw [hfall]
    exact ⟨nearestOf p n0 ns, rfl, fun m hm => nearestOf_min p ns n0 m hm⟩

/-- First node of the C3 counterexample graph: id 1 at latitude 0,
longitude 170. -/
def nodeA : GraphNode := ⟨1, 0, 170⟩

/-- Second node of the C3 counterexample graph: id 2 at latitude 0,
longitude -179. -/
def nodeB : GraphNode := ⟨2, 0, -179⟩

/-- A two-node graph in which all nodes share latitude 0; node tuples
are `[id, lon, lat]`. -/
def gC3 : Graph ℤ := ⟨[(1, 170, 0), (2, -179, 0)], []⟩

/-- The query point of the C3 counterexample. -/
def qC3 : Point := ⟨0, 179⟩

theorem gC3_nodesArray : gC3.nodesArray = [nodeA, nodeB] := rfl

theorem gC3_minLat : gC3.minLat = 0 := by
  show min (0 : ℝ) 0 = 0
  exact min_self 0

theorem gC3_maxLat : gC3.maxLat = 0 := by
  show max (0 : ℝ) 0 = 0
  exact max_self 0

theorem gC3_minLon : gC3.minLon = -179 := by
  show min (170 : ℝ) (-179) = -179
  exact min_eq_right (by norm_num)

theorem gC3_maxLon : gC3.maxLon = 170 := by
  show max (170 : ℝ) (-179) = 170
  exact max_eq_left (by norm_num)

theorem gC3_res : gC3.gridResolution = 1 := by
  unfold Graph.gridResolution
  have hlen : gC3.nodesArray.length = 2 := rfl
  rw [hlen]
  rw [show (⌈((2 : ℕ) : ℝ) / 20⌉₊) = 1 from by
    rw [Nat.ceil_eq_iff (by norm_num)]
    push_cast
    norm_num]
  norm_num

theorem gC3_latToGrid (x : ℝ) : gC3.latToGrid x = 0 := by
  simp only [Graph.latToGrid]
  rw [gC3_maxLat, gC3_minLat]
  norm_num

theorem gC3_lonToGrid (x : ℝ) :
    gC3.lonToGrid x = ⌊(x + 179) / 349⌋ := by
  simp only [Graph.lonToGrid]
  rw [gC3_maxLon, gC3_minLon, gC3_res]
  rw [if_neg (by norm_num)]
  norm_num

theorem gC3_cellA : gC3.cellOf nodeA = (0, 1) := by
  unfold Graph.cellOf
  rw [gC3_latToGrid, gC3_lonToGrid]
  simp only [nodeA]
  norm_num

theorem gC3_cellB : gC3.cellOf nodeB = (0, 0) := by
  unfold Graph.cellOf
  rw [gC3_latToGrid, gC3_lonToGrid]
  simp only [nodeB]
  norm_num

theorem gC3_grid01 : gC3.spatialGrid (0, 1) = [nodeA] := by
  unfold Graph.spatialGrid
  rw [gC3_nodesArray]
  simp only [List.foldl_cons, List.foldl_nil]
  rw [gC3_cellA, gC3_cellB]
  simp

theorem gC3_nearby0 : gC3.getNodesNearby 0 179 0 = [nodeA] := by
  simp only [Graph.getNodesNearby]
  rw [gC3_latToGrid, gC3_lonToGrid]
  have hr0 : rangeList 0 = [0] := by decide
  rw [hr0]
  have hfl : (⌊((179 : ℝ) + 179) / 349⌋ : ℤ) = 1 := by
    rw [Int.floor_eq_iff]
    norm_num
  simp only [List.flatMap_cons, List.flatMap_nil, List.append_nil]
  rw [hfl]
  norm_num
  exact gC3_grid01

theorem gC3_expand : expandSearch gC3 qC3 6 0 = [nodeA] :=
  expandSearch_found gC3 qC3 5 0 nodeA [] gC3_nearby0

theorem gC3_findNearest : findNearestNode gC3 qC3 = some nodeA := by
  unfold findNearestNode
  rw [show gC3.getAllNodes = nodeA :: [nodeB] from rfl, gC3_expand]
  rfl

theorem gC3_haversineA_A :
    haversineA qC3 nodeA.pt =
      Real.sin (Real.pi / 40) * Real.sin (Real.pi / 40) := by
  simp only [haversineA, toRadians, qC3, nodeA, GraphNode.pt]
  rw [show ((170 : ℝ) - 179) * (Real.pi / 180) / 2 = -(Real.pi / 40) by ring,
    show ((0 : ℝ) - 0) * (Real.pi / 180) / 2 = 0 by ring,
    show ((0 : ℝ)) * (Real.pi / 180) = 0 by ring]
  rw [Real.sin_neg, Real.sin_zero, Real.cos_zero]
  ring

theorem gC3_haversineA_B :
    haversineA qC3 nodeB.pt =
      Real.sin (Real.pi / 180) * Real.sin (Real.pi / 180) := by
  simp only [haversineA, toRadians, qC3, nodeB, GraphNode.pt]
  rw [show ((-179 : ℝ) - 179) * (Real.pi / 180) / 2 =
        -(Real.pi - Real.pi / 180) by ring,
    show ((0 : ℝ) - 0) * (Real.pi / 180) / 2 = 0 by ring,
    show ((0 : ℝ)) * (Real.pi / 180) = 0 by ring]
  rw [Real.sin_neg, Real.sin_pi_sub, Real.sin_zero, Real.cos_zero]
  ring

theorem gC3_closer :
    haversineDistance qC3 nodeB.pt < haversineDistance qC3 nodeA.pt := by
  have hs1 : 0 < Real.sin (Real.pi / 180) :=
    Real.sin_pos_of_pos_of_lt_pi (by positivity) (by nlinarith [Real.pi_pos])
  have hs2 : Real.sin (Real.pi / 180) < Real.sin (Real.pi / 40) := by
    apply Real.strictMonoOn_sin
      ⟨by nlinarith [Real.pi_pos], by nlinarith [Real.pi_pos]⟩
      ⟨by nlinarith [Real.pi_pos], by nlinarith [Real.pi_pos]⟩
    nlinarith [Real.pi_pos]
  have hs3 : Real.sin (Real.pi / 40) < 1 := by
    have h := Real.strictMonoOn_sin (a := Real.pi / 40) (b := Real.pi / 2)
      ⟨by nlinarith [Real.pi_pos], by nlinarith [Real.pi_pos]⟩
      ⟨by nlinarith [Real.pi_pos], by nlinarith [Real.pi_pos]⟩
      (by nlinarith [Real.pi_pos])
    rwa [Real.sin_pi_div_two] at h
  have hC : haversineC qC3 nodeB.pt < haversineC qC3 nodeA.pt := by
    unfold haversineC
    rw [gC3_haversineA_A, gC3_haversineA_B]
    apply atan2_sqrt_strict_mono
    · exact mul_self_nonneg _
    · exact mul_self_lt_mul_self (le_of_lt hs1) hs2
    · nlinarith
  unfold haversineDistance EARTH_RADIUS_NM
  nlinarith

/-- C3 counterexample: in the two-node graph `gC3`, all nodes share
latitude 0, yet `findNearestNode` at the query `(0, 179)` returns
`nodeA` (longitude 170) found through the spatial grid, although
`nodeB` (longitude -179) is strictly closer by haversine distance
(wrap-around). The linear-scan fallback is not exercised, so the
returned node is not the globally nearest one. -/
theorem findNearestNode_degenerate_not_global :
    (∀ n ∈ gC3.getAllNodes, n.lat = 0) ∧
      findNearestNode gC3 qC3 = some nodeA ∧
      nodeB ∈ gC3.getAllNodes ∧
      haversineDistance qC3 nodeB.pt < haversineDistance qC3 nodeA.pt := by
  refine ⟨?_, gC3_findNearest, ?_, gC3_closer⟩
  · intro n hn
    have hg : gC3.getAllNodes = [nodeA, nodeB] := rfl
    rw [hg] at hn
    simp only [List.mem_cons, List.not_mem_nil, or_false] at hn
    rcases hn with h | h <;> simp [h, nodeA, nodeB]
  · rw [show gC3.getAllNodes = [nodeA, nodeB] from rfl]
    simp

/-- Witness graph for the amended C3: two nodes sharing latitude 0 at
longitudes 0 and 1/10; node tuples are `[id, lon, lat]`. -/
noncomputable def gw3 : Graph ℤ := ⟨[(1, 0, 0), (2, 1/10, 0)], []⟩

/-- Witness query far outside the grid: every radius up to 5 is empty. -/
def pw3 : Point := ⟨0, 179⟩

theorem gw3_nodesArray : gw3.nodesArray = [⟨1, 0, 0⟩, ⟨2, 0, 1/10⟩] := rfl

theorem gw3_minLat : gw3.minLat = 0 := by
  show min (0 : ℝ) 0 = 0
  exact min_self 0

theorem gw3_maxLat : gw3.maxLat = 0 := by
  show max (0 : ℝ) 0 = 0
  exact max_self 0

theorem gw3_minLon : gw3.minLon = 0 := by
  show min (0 : ℝ) (1/10) = 0
  exact min_eq_left (by norm_num)

theorem gw3_maxLon : gw3.maxLon = 1/10 := by
  show max (0 : ℝ) (1/10) = 1/10
  exact max_eq_right (by norm_num)

theorem gw3_res : gw3.gridResolution = 1 := by
  unfold Graph.gridResolution
  have hlen : gw3.nodesArray.length = 2 := rfl
  rw [hlen]
  rw [show (⌈((2 : ℕ) : ℝ) / 20⌉₊) = 1 from by
    rw [Nat.ceil_eq_iff (by norm_num)]
    push_cast
    norm_num]
  norm_num

theorem gw3_latToGrid (x : ℝ) : gw3.latToGrid x = 0 := by
  simp only [Graph.latToGrid]
  rw [gw3_maxLat, gw3_minLat]
  norm_num

theorem gw3_lonToGrid (x : ℝ) : gw3.lonToGrid x = ⌊x * 10⌋ := by
  simp only [Graph.lonToGrid]
  rw [gw3_maxLon, gw3_minLon, gw3_res]
  rw [if_neg (by norm_num)]
  norm_num
  congr 1
  rw [div_eq_mul_inv]
  norm_num

theorem gw3_cell1 : gw3.cellOf ⟨1, 0, 0⟩ = (0, 0) := by
  unfold Graph.cellOf
  rw [gw3_latToGrid, gw3_lonToGrid]
  norm_num

theorem gw3_cell2 : gw3.cellOf ⟨2, 0, 1/10⟩ = (0, 1) := by
  unfold Graph.cellOf
  rw [gw3_latToGrid, gw3_lonToGrid]
  norm_num

theorem gw3_nearby_empty (j : ℕ) (hj : j ≤ 5) :
    gw3.getNodesNearby pw3.lat pw3.lon j = [] := by
  rw [List.eq_nil_iff_forall_not_mem]
  intro n hn
  simp only [Graph.getNodesNearby, List.mem_flatMap] at hn
  obtain ⟨dLat, hdLat, dLon, hdLon, hmem⟩ := hn
  rw [rangeList_mem] at hdLat hdLon
  rw [spatialGrid_mem] at hmem
  obtain ⟨hna, hkey⟩ := hmem
  rw [gw3_nodesArray] at hna
  have hlon : gw3.lonToGrid pw3.lon = 1790 := by
    rw [gw3_lonToGrid]
    show (⌊(179 : ℝ) * 10⌋ : ℤ) = 1790
    norm_num
  simp only [List.mem_cons, List.not_mem_nil, or_false] at hna
  rcases hna with h | h
  · rw [h] at hkey
    rw [gw3_cell1, hlon] at hkey
    have := congrArg Prod.snd hkey
    simp at this
    omega
  · rw [h] at hkey
    rw [gw3_cell2, hlon] at hkey
    have := congrArg Prod.snd hkey
    simp at this
    omega

theorem gw3_expand_empty : expandSearch gw3 pw3 6 0 = [] :=
  expandSearch_eq_nil gw3 pw3 6 0
    (fun j _ hj2 => gw3_nearby_empty j (by omega))

/-- Witness for the amended C3: on `gw3` (all latitudes 0) the grid
yields no candidates at any radius up to 5, the fallback runs, and the
result is globally nearest. -/
theorem findNearestNode_fallback_global_witness :
    (∀ n ∈ gw3.getAllNodes, n.lat = 0) ∧ gw3.getAllNodes ≠ [] ∧
      expandSearch gw3 pw3 6 0 = [] ∧
      ∃ n, findNearestNode gw3 pw3 = some n ∧
        ∀ m ∈ gw3.getAllNodes,
          haversineDistance pw3 n.pt ≤ haversineDistance pw3 m.pt := by
  have hlat : ∀ n ∈ gw3.getAllNodes, n.lat = 0 := by
    intro n hn
    rw [show gw3.getAllNodes = [⟨1, 0, 0⟩, ⟨2, 0, 1/10⟩] from rfl] at hn
    simp only [List.mem_cons, List.not_mem_nil, or_false] at hn
    rcases hn with h | h <;> simp [h]
  have hne : gw3.getAllNodes ≠ [] := by
    rw [show gw3.getAllNodes = [⟨1, 0, 0⟩, ⟨2, 0, 1/10⟩] from rfl]
    simp
  exact ⟨hlat, hne, gw3_expand_empty,
    findNearestNode_fallback_global gw3 pw3 0 hlat hne gw3_expand_empty⟩

/-- A nonempty graph always resolves a nearest node. -/
theorem findNearestNode_isSome {W : Type} (g : Graph W) (p : Point)
    (hne : g.getAllNodes ≠ []) : ∃ n, findNearestNode g p = some n := by
  unfold findNearestNode
  cases hg : g.getAllNodes with
  | nil => exact absurd hg hne
  | cons n0 ns =>
    cases hc : expandSearch g p 6 0 with
    | nil => exact ⟨_, rfl⟩
    | cons c0 cs => exact ⟨_, rfl⟩

/-- C5: when origin and destination resolve to the same node id,
`findRoute` short-circuits to the single-point result (one waypoint,
zero distance, the node's `[lon, lat]`), and in particular
`findRoute p p` has one waypoint and `findDistance p p = 0`
(part_001 lines 40-50, part_003 lines 60-63). -/
theorem findRoute_same_node {W : Type} [LinearOrderedAddCommMonoid W]
    (fuel : ℕ) (g : Graph W) (hdist : GraphNode → GraphNode → W)
    (origin destination p : Point) (s e : GraphNode)
    (h1 : findNearestNode g origin = some s)
    (h2 : findNearestNode g destination = some e)
    (h3 : s.id = e.id) (hne : g.getAllNodes ≠ []) :
    findRoute fuel g hdist origin destination =
        some (.ok ⟨[(s.lon, s.lat)], 0, 1⟩) ∧
      (∃ w, findRoute fuel g hdist p p = some (.ok w) ∧ w.waypoints = 1 ∧
        w.distance = 0 ∧ w.coordinates.length = 1) ∧
      findDistance fuel g hdist p p = some (.ok 0) := by
  obtain ⟨n, hn⟩ := findNearestNode_isSome g p hne
  have hroute : findRoute fuel g hdist p p =
      some (.ok ⟨[(n.lon, n.lat)], 0, 1⟩) := by
    unfold findRoute
    rw [hn]
    dsimp only
    rw [if_pos rfl]
  refine ⟨?_, ⟨⟨[(n.lon, n.lat)], 0, 1⟩, hroute, rfl, rfl, rfl⟩, ?_⟩
  · unfold findRoute
    rw [h1, h2]
    dsimp only
    rw [if_pos h3]
  · unfold findDistance
    rw [hroute]
    rfl

/-- One-node witness graph for C5; node tuple is `[id, lon, lat]`. -/
def g5 : Graph ℤ := ⟨[(7, 10, 20)], []⟩

/-- The single node of `g5`. -/
def n5 : GraphNode := ⟨7, 20, 10⟩

/-- Query at the node's own position. -/
def p5 : Point := ⟨20, 10⟩

theorem g5_latToGrid (x : ℝ) : g5.latToGrid x = 0 := by
  simp only [Graph.latToGrid]
  rw [show g5.maxLat = 20 from rfl, show g5.minLat = 20 from rfl]
  norm_num

theorem g5_lonToGrid (x : ℝ) : g5.lonToGrid x = 0 := by
  simp only [Graph.lonToGrid]
  rw [show g5.maxLon = 10 from rfl, show g5.minLon = 10 from rfl]
  norm_num

theorem g5_cell : g5.cellOf n5 = (0, 0) := by
  unfold Graph.cellOf
  rw [g5_latToGrid, g5_lonToGrid]

theorem g5_grid00 : g5.spatialGrid (0, 0) = [n5] := by
  unfold Graph.spatialGrid
  rw [show g5.nodesArray = [n5] from rfl]
  simp only [List.foldl_cons, List.foldl_nil]
  rw [g5_cell]
  simp

theorem g5_nearby0 : g5.getNodesNearby p5.lat p5.lon 0 = [n5] := by
  simp only [Graph.getNodesNearby]
  rw [g5_latToGrid, g5_lonToGrid]
  rw [show rangeList 0 = [0] from by decide]
  simp only [List.flatMap_cons, List.flatMap_nil, List.append_nil]
  norm_num
  exact g5_grid00

theorem g5_findNearest : findNearestNode g5 p5 = some n5 := by
  unfold findNearestNode
  rw [show g5.getAllNodes = n5 :: [] from rfl,
    expandSearch_found g5 p5 5 0 n5 [] g5_nearby0]
  rfl

/-- Witness for C5 at a concrete one-node graph with the query at the
node's own position. -/
theorem findRoute_same_node_witness :
    (findNearestNode g5 p5 = some n5 ∧ n5.id = n5.id ∧
        g5.getAllNodes ≠ []) ∧
      findRoute 1 g5 (fun _ _ => (0 : ℤ)) p5 p5 =
          some (.ok ⟨[(n5.lon, n5.lat)], 0, 1⟩) ∧
        (∃ w, findRoute 1 g5 (fun _ _ => (0 : ℤ)) p5 p5 = some (.ok w) ∧
          w.waypoints = 1 ∧ w.distance = 0 ∧ w.coordinates.length = 1) ∧
        findDistance 1 g5 (fun _ _ => (0 : ℤ)) p5 p5 = some (.ok 0) :=
  ⟨⟨g5_findNearest, rfl, by rw [show g5.getAllNodes = [n5] from rfl]; simp⟩,
    findRoute_same_node 1 g5 (fun _ _ => (0 : ℤ)) p5 p5 p5 n5 n5
      g5_findNearest g5_findNearest rfl
      (by rw [show g5.getAllNodes = [n5] from rfl]; simp)⟩

/-- A list is a parent chain: each element is the recorded parent of its
successor. -/
def chainParent (p : ℤ → Option ℤ) : List ℤ → Prop
  | [] => True
  | [_] => True
  | a :: b :: rest => p b = some a ∧ chainParent p (b :: rest)

theorem chainParent_pairs (p : ℤ → Option ℤ) :
    ∀ l, chainParent p l → ∀ uv ∈ l.zip l.tail, p uv.2 = some uv.1 := by
  intro l
  induction l with
  | nil => intro _ uv huv; simp at huv
  | cons a tail ih =>
    cases tail with
    | nil => intro _ uv huv; simp at huv
    | cons b rest =>
      intro hch uv huv
      obtain ⟨hab, hch'⟩ := hch
      simp only [List.tail_cons, List.zip_cons_cons, List.mem_cons] at huv
      rcases huv with rfl | huv
      · exact hab
      · exact ih hch' uv (by simpa using huv)

theorem chainParent_append (p : ℤ → Option ℤ) :
    ∀ l (a c : ℤ), chainParent p l → l.getLast? = some a → p c = some a →
      chainParent p (l ++ [c]) := by
  intro l
  induction l with
  | nil => intro a c _ hlast _; simp at hlast
  | cons x tail ih =>
    cases tail with
    | nil =>
      intro a c _ hlast hpc
      simp only [List.getLast?_singleton, Option.some.injEq] at hlast
      exact ⟨by rw [hlast]; exact hpc, trivial⟩
    | cons y rest =>
      intro a c hch hlast hpc
      obtain ⟨hxy, hch'⟩ := hch
      refine ⟨hxy, ?_⟩
      exact ih a c hch' (by simpa using hlast) hpc

theorem walkParent_some (p : ℤ → Option ℤ) :
    ∀ (fuel : ℕ) (cur : ℤ) (l : List ℤ),
      walkParent fuel p cur = some l →
      l ≠ [] ∧ l.getLast? = some cur ∧ chainParent p l ∧
        (∀ x ∈ l, x = cur ∨ ∃ v, p v = some x) := by
  intro fuel
  induction fuel with
  | zero => intro cur l h; exact absurd h (by simp [walkParent])
  | succ f ih =>
    intro cur l h
    unfold walkParent at h
    cases hp : p cur with
    | none =>
      rw [hp] at h
      simp only [Option.some.injEq] at h
      subst h
      refine ⟨by simp, by simp, trivial, ?_⟩
      intro x hx
      simp at hx
      exact Or.inl hx
    | some pr =>
      rw [hp] at h
      rw [Option.map_eq_some'] at h
      obtain ⟨l', hl', rfl⟩ := h
      obtain ⟨hne, hlast, hch, hmem⟩ := ih pr l' hl'
      refine ⟨by simp, by simp, chainParent_append p l' pr cur hch hlast hp, ?_⟩
      intro x hx
      rw [List.mem_append] at hx
      rcases hx with hx | hx
      · rcases hmem x hx with rfl | hv
        · exact Or.inr ⟨cur, hp⟩
        · exact Or.inr hv
      · simp at hx
        exact Or.inl hx

/-- Invariant: every open-set entry is the start node or exists in the
graph. -/
def OpenOk {W : Type} (g : Graph W) (s : ℤ) (o : List (PQEntry W)) : Prop :=
  ∀ e ∈ o, e.nodeId = s ∨ (g.getNode e.nodeId).isSome

/-- Invariant: every parent link points along an existing adjacency
record. -/
def ParentEdgeOk {W : Type} (g : Graph W) (p : ℤ → Option ℤ) : Prop :=
  ∀ v u, p v = some u → ∃ a ∈ g.getNeighbors u, a.nodeId = v

/-- Invariant: every parent value is the start node or exists in the
graph. -/
def ParentNodeOk {W : Type} (g : Graph W) (s : ℤ) (p : ℤ → Option ℤ) : Prop :=
  ∀ v u, p v = some u → u = s ∨ (g.getNode u).isSome

/-- The A* loop invariant. -/
def StateInv {W : Type} (g : Graph W) (s : ℤ) (st : AStarState W) : Prop :=
  OpenOk g s st.openSet ∧ ParentEdgeOk g st.parent ∧ ParentNodeOk g s st.parent

theorem openSetInsert_mem {W : Type} [LinearOrderedAddCommMonoid W]
    (o : List (PQEntry W)) (nodeId : ℤ) (f gc : W) (x : PQEntry W)
    (hx : x ∈ openSetInsert o nodeId f gc) : x ∈ o ∨ x.nodeId = nodeId := by
  unfold openSetInsert at hx
  cases hi : o.findIdx? (fun e => e.nodeId == nodeId) with
  | none =>
    rw [hi] at hx
    rw [List.mem_append] at hx
    rcases hx with hx | hx
    · exact Or.inl hx
    · simp at hx
      rw [hx]
      exact Or.inr rfl
  | some i =>
    rw [hi] at hx
    dsimp only at hx
    cases ho : o[i]? with
    | none => rw [ho] at hx; exact Or.inl hx
    | some old =>
      rw [ho] at hx
      dsimp only at hx
      by_cases hlt : f < old.fCost
      · rw [if_pos hlt] at hx
        rcases List.mem_or_eq_of_mem_set hx with h | h
        · exact Or.inl h
        · rw [h]; exact Or.inr rfl
      · rw [if_neg hlt] at hx
        exact Or.inl hx

theorem relaxNeighbor_inv {W : Type} [LinearOrderedAddCommMonoid W]
    (g : Graph W) (hdist : GraphNode → GraphNode → W) (goalNode : GraphNode)
    (s : ℤ) (current : PQEntry W) (st : AStarState W) (nb : AdjacencyEntry W)
    (hnb : nb ∈ g.getNeighbors current.nodeId)
    (hcur : current.nodeId = s ∨ (g.getNode current.nodeId).isSome)
    (hInv : StateInv g s st) :
    StateInv g s (relaxNeighbor g hdist goalNode current st nb) := by
  obtain ⟨hOpen, hEdge, hNode⟩ := hInv
  have hEdge' : ParentEdgeOk g (mapSet st.parent nb.nodeId current.nodeId) := by
    intro v u hvu
    unfold mapSet at hvu
    by_cases hv : v = nb.nodeId
    · rw [if_pos hv] at hvu
      simp only [Option.some.injEq] at hvu
      rw [← hvu, hv]
      exact ⟨nb, hnb, rfl⟩
    · rw [if_neg hv] at hvu
      exact hEdge v u hvu
  have hNode' : ParentNodeOk g s (mapSet st.parent nb.nodeId current.nodeId) := by
    intro v u hvu
    unfold mapSet at hvu
    by_cases hv : v = nb.nodeId
    · rw [if_pos hv] at hvu
      simp only [Option.some.injEq] at hvu
      rw [← hvu]
      exact hcur
    · rw [if_neg hv] at hvu
      exact hNode v u hvu
  unfold relaxNeighbor
  by_cases hc : st.closed.contains nb.nodeId
  · rw [if_pos hc]
    exact ⟨hOpen, hEdge, hNode⟩
  · rw [if_neg hc]
    dsimp only
    repeat' split
    all_goals
      first
        | exact ⟨hOpen, hEdge, hNode⟩
        | exact ⟨hOpen, hEdge', hNode'⟩
        | (rename_i neighborNode hgn
           refine ⟨?_, hEdge', hNode'⟩
           intro e he
           rcases openSetInsert_mem _ _ _ _ e he with h | h
           · exact hOpen e h
           · rw [h]
             exact Or.inr (by rw [hgn]; rfl))

theorem relaxFold_inv {W : Type} [LinearOrderedAddCommMonoid W]
    (g : Graph W) (hdist : GraphNode → GraphNode → W) (goalNode : GraphNode)
    (s : ℤ) (current : PQEntry W)
    (hcur : current.nodeId = s ∨ (g.getNode current.nodeId).isSome) :
    ∀ (l : List (AdjacencyEntry W)) (st : AStarState W),
      (∀ nb ∈ l, nb ∈ g.getNeighbors current.nodeId) →
      StateInv g s st →
      StateInv g s (l.foldl (relaxNeighbor g hdist goalNode current) st) := by
  intro l
  induction l with
  | nil => intro st _ hInv; exact hInv
  | cons nb rest ih =>
    intro st hl hInv
    rw [List.foldl_cons]
    exact ih _ (fun x hx => hl x (List.mem_cons_of_mem nb hx))
      (relaxNeighbor_inv g hdist goalNode s current st nb
        (hl nb (List.mem_cons_self nb rest)) hcur hInv)

theorem insertByF_mem {W : Type} [LinearOrder W] (e x : PQEntry W) :
    ∀ l, x ∈ insertByF e l ↔ x = e ∨ x ∈ l := by
  intro l
  induction l with
  | nil => simp [insertByF]
  | cons a as ih =>
    unfold insertByF
    by_cases h : a.fCost ≤ e.fCost
    · rw [if_pos h]
      simp only [List.mem_cons, ih]
      tauto
    · rw [if_neg h]
      simp only [List.mem_cons]

theorem sortByF_mem {W : Type} [LinearOrder W] (x : PQEntry W) :
    ∀ l, x ∈ sortByF l ↔ x ∈ l := by
  intro l
  induction l with
  | nil => simp [sortByF]
  | cons a as ih =>
    unfold sortByF
    rw [insertByF_mem]
    simp only [List.mem_cons, ih]

theorem aStarLoop_sound {W : Type} [LinearOrderedAddCommMonoid W]
    (g : Graph W) (hdist : GraphNode → GraphNode → W) (goalId : ℤ)
    (goalNode : GraphNode) (s : ℤ) :
    ∀ (fuel : ℕ) (st : AStarState W) (r : AStarResult W),
      StateInv g s st →
      aStarLoop g hdist goalId goalNode fuel st = some r →
      (∀ uv ∈ r.path.zip r.path.tail, (findEdge g uv.1 uv.2).isSome) ∧
        r.distance = pathDistance g r.path ∧
        (∀ id ∈ r.path, id = goalId ∨ id = s ∨ (g.getNode id).isSome) := by
  intro fuel
  induction fuel with
  | zero => intro st r _ h; exact absurd h (by simp [aStarLoop])
  | succ f ih =>
    intro st r hInv h
    unfold aStarLoop at h
    cases hs : sortByF st.openSet with
    | nil =>
      rw [hs] at h
      simp only [Option.some.injEq] at h
      rw [← h]
      exact ⟨by simp, rfl, by simp⟩
    | cons current rest =>
      rw [hs] at h
      dsimp only at h
      by_cases hgoal : current.nodeId = goalId
      · rw [if_pos hgoal] at h
        cases hw : walkParent (f + 1) st.parent goalId with
        | none => rw [hw] at h; exact absurd h (by simp)
        | some path =>
          rw [hw] at h
          simp only [Option.some.injEq] at h
          obtain ⟨hne, hlast, hch, hmem⟩ :=
            walkParent_some st.parent (f + 1) goalId path hw
          obtain ⟨hOpen, hEdge, hNode⟩ := hInv
          rw [← h]
          refine ⟨?_, rfl, ?_⟩
          · intro uv huv
            have hp := chainParent_pairs st.parent path hch uv huv
            obtain ⟨a, ha, haid⟩ := hEdge uv.2 uv.1 hp
            simp only [findEdge, List.find?_isSome]
            exact ⟨a, ha, by simp [haid]⟩
          · intro id hid
            rcases hmem id hid with rfl | ⟨v, hv⟩
            · exact Or.inl rfl
            · rcases hNode v id hv with rfl | hsome
              · exact Or.inr (Or.inl rfl)
              · exact Or.inr (Or.inr hsome)
      · rw [if_neg hgoal] at h
        obtain ⟨hOpen, hEdge, hNode⟩ := hInv
        have hcur : current.nodeId = s ∨ (g.getNode current.nodeId).isSome :=
          hOpen current ((sortByF_mem current st.openSet).mp
            (by rw [hs]; exact List.mem_cons_self current rest))
        have hOpen' : OpenOk g s rest := fun e he =>
          hOpen e ((sortByF_mem e st.openSet).mp
            (by rw [hs]; exact List.mem_cons_of_mem current he))
        exact ih _ r
          (relaxFold_inv g hdist goalNode s current hcur
            (g.getNeighbors current.nodeId)
            ⟨rest, current.nodeId :: st.closed, st.gCost, st.parent⟩
            (fun nb hnb => hnb) ⟨hOpen', hEdge, hNode⟩) h

theorem aStar_sound {W : Type} [LinearOrderedAddCommMonoid W] (fuel : ℕ)
    (g : Graph W) (hdist : GraphNode → GraphNode → W) (s t : ℤ)
    (r : AStarResult W) (h : aStar fuel g hdist s t = some (.ok r)) :
    (∀ uv ∈ r.path.zip r.path.tail, (findEdge g uv.1 uv.2).isSome) ∧
      r.distance = pathDistance g r.path ∧
      (∀ id ∈ r.path, id = t ∨ id = s ∨ (g.getNode id).isSome) ∧
      (g.getNode t).isSome := by
  unfold aStar at h
  cases hg : g.getNode t with
  | none => rw [hg] at h; exact absurd h (by simp)
  | some goalNode =>
    rw [hg] at h
    rw [Option.map_eq_some'] at h
    obtain ⟨r', hr', hrr⟩ := h
    have hr2 : r' = r := by
      simpa using hrr
    rw [hr2] at hr'
    have hInit : StateInv g s
        ⟨[⟨s, 0, 0⟩], [], mapSet (fun _ => none) s 0, fun _ => none⟩ := by
      refine ⟨?_, ?_, ?_⟩
      · intro e he
        simp only [List.mem_singleton] at he
        rw [he]
        exact Or.inl rfl
      · intro v u hvu
        exact absurd hvu (by simp)
      · intro v u hvu
        exact absurd hvu (by simp)
    obtain ⟨h1, h2, h3⟩ := aStarLoop_sound g hdist t goalNode s fuel _ r hInit hr'
    exact ⟨h1, h2, h3, rfl⟩

theorem pathDistance_eq_sum {W : Type} [LinearOrderedAddCommMonoid W]
    (g : Graph W) (path : List ℤ) :
    pathDistance g path =
      ((path.zip path.tail).map
        (fun uv =>
          ((findEdge g uv.1 uv.2).map AdjacencyEntry.distance).getD 0)).sum := by
  unfold pathDistance
  rw [List.sum_eq_foldl, List.foldl_map]
  congr 1
  funext acc uv
  cases findEdge g uv.1 uv.2 <;> simp

/-- C1: every successful A* search returns a path whose consecutive
pairs all correspond to existing adjacency records, and its reported
distance is the sum of the looked-up weights of those records, as
recomputed by the reconstruction loop (part_001 lines 109-129). -/
theorem aStar_path_valid {W : Type} [LinearOrderedAddCommMonoid W]
    (fuel : ℕ) (g : Graph W) (hdist : GraphNode → GraphNode → W) (s t : ℤ)
    (r : AStarResult W) (h : aStar fuel g hdist s t = some (.ok r))
    (hne : r.path ≠ []) :
    (∀ uv ∈ r.path.zip r.path.tail, (findEdge g uv.1 uv.2).isSome) ∧
      r.distance =
        ((r.path.zip r.path.tail).map
          (fun uv =>
            ((findEdge g uv.1 uv.2).map AdjacencyEntry.distance).getD 0)).sum := by
  obtain ⟨h1, h2, _⟩ := aStar_sound fuel g hdist s t r h
  exact ⟨h1, by rw [h2, pathDistance_eq_sum]⟩

/-- Two-node witness graph with one weight-5 edge; node tuples are
`[id, lon, lat]`, the edge tuple `[from, to, length]`. -/
noncomputable def g1 : Graph ℤ := ⟨[(1, 0, 0), (2, 0, 0)], [(1, 2, 5)]⟩

/-- Witness for C1: a concrete successful run on `g1`. -/
theorem aStar_path_valid_witness :
    (aStar 3 g1 (fun _ _ => (0 : ℤ)) 1 2 = some (.ok ⟨[1, 2], 5⟩) ∧
        ([1, 2] : List ℤ) ≠ []) ∧
      (∀ uv ∈ ([1, 2] : List ℤ).zip ([1, 2] : List ℤ).tail,
          (findEdge g1 uv.1 uv.2).isSome) ∧
        (5 : ℤ) =
          ((([1, 2] : List ℤ).zip ([1, 2] : List ℤ).tail).map
            (fun uv =>
              ((findEdge g1 uv.1 uv.2).map AdjacencyEntry.distance).getD 0)).sum :=
  ⟨⟨rfl, by simp⟩,
    aStar_path_valid 3 g1 (fun _ _ => (0 : ℤ)) 1 2 ⟨[1, 2], 5⟩ rfl (by simp)⟩

theorem findNearestNode_eq_none_iff {W : Type} (g : Graph W) (p : Point) :
    findNearestNode g p = none ↔ g.getAllNodes = [] := by
  unfold findNearestNode
  cases hg : g.getAllNodes with
  | nil => simp
  | cons n0 ns => cases hc : expandSearch g p 6 0 <;> simp

theorem nodesMap_fold_none (l : List (ℤ × ℝ × ℝ)) :
    ∀ (m0 : ℤ → Option GraphNode) (k : ℤ),
      (l.foldl (fun m t => mapSet m t.1 ⟨t.1, t.2.2, t.2.1⟩) m0) k = none →
      m0 k = none ∧ ∀ t ∈ l, t.1 ≠ k := by
  induction l with
  | nil => intro m0 k h; exact ⟨h, by simp⟩
  | cons t rest ih =>
    intro m0 k h
    rw [List.foldl_cons] at h
    obtain ⟨hm, hrest⟩ := ih _ k h
    unfold mapSet at hm
    by_cases hk : k = t.1
    · rw [if_pos hk] at hm
      exact absurd hm (by simp)
    · rw [if_neg hk] at hm
      refine ⟨hm, ?_⟩
      intro t' ht'
      rcases List.mem_cons.mp ht' with rfl | ht'
      · exact fun he => hk he.symm
      · exact hrest t' ht'

theorem getNode_isSome_of_mem {W : Type} (g : Graph W) (n : GraphNode)
    (hn : n ∈ g.nodesArray) : (g.getNode n.id).isSome := by
  unfold Graph.nodesArray at hn
  rw [List.mem_map] at hn
  obtain ⟨t, ht, rfl⟩ := hn
  cases hm : g.getNode t.1 with
  | none =>
    obtain ⟨_, hall⟩ := nodesMap_fold_none g.nodesData _ t.1 hm
    exact absurd rfl (hall t ht)
  | some _ => rfl

theorem coordsOf_ok {W : Type} (g : Graph W) :
    ∀ path : List ℤ, (∀ id ∈ path, (g.getNode id).isSome) →
      ∃ cs, coordsOf g path = .ok cs ∧ cs.length = path.length := by
  intro path
  induction path with
  | nil => intro _; exact ⟨[], rfl, rfl⟩
  | cons id rest ih =>
    intro hall
    obtain ⟨n, hn⟩ := Option.isSome_iff_exists.mp
      (hall id (List.mem_cons_self id rest))
    obtain ⟨cs, hcs, hlen⟩ := ih (fun x hx => hall x (List.mem_cons_of_mem id hx))
    refine ⟨(n.lon, n.lat) :: cs, ?_, by simp [hlen]⟩
    unfold coordsOf
    rw [hn, hcs]
    rfl

/-- C2: a `findRoute` call (that completes within its fuel) either
fully succeeds — with one coordinate per waypoint and at least one
waypoint — or throws, and it throws exactly when the graph has zero
nodes (nearest-node resolution fails) or when the two resolved nodes
are distinct and A* reports no connecting path (part_001 lines 32-75,
src/src/nearest-node.ts lines 13-18). -/
theorem findRoute_error_iff {W : Type} [LinearOrderedAddCommMonoid W]
    (fuel : ℕ) (g : Graph W) (hdist : GraphNode → GraphNode → W)
    (origin destination : Point) (res : Except RouteError (RouteResult W))
    (h : findRoute fuel g hdist origin destination = some res) :
    ((∃ err, res = .error err) ↔
        (g.getAllNodes = [] ∨
          ∃ s e r, findNearestNode g origin = some s ∧
            findNearestNode g destination = some e ∧ s.id ≠ e.id ∧
            aStar fuel g hdist s.id e.id = some (.ok r) ∧ r.path = [])) ∧
      (∀ rr, res = .ok rr →
        rr.coordinates.length = rr.waypoints ∧ 0 < rr.waypoints) := by
  unfold findRoute at h
  cases ho : findNearestNode g origin with
  | none =>
    rw [ho] at h
    dsimp only at h
    simp only [Option.some.injEq] at h
    constructor
    · constructor
      · intro _
        exact Or.inl ((findNearestNode_eq_none_iff g origin).mp ho)
      · intro _
        exact ⟨.noNearest, h.symm⟩
    · intro rr hrr
      rw [← h] at hrr
      exact absurd hrr (by simp)
  | some s =>
    rw [ho] at h
    cases hd : findNearestNode g destination with
    | none =>
      rw [hd] at h
      dsimp only at h
      simp only [Option.some.injEq] at h
      constructor
      · constructor
        · intro _
          exact Or.inl ((findNearestNode_eq_none_iff g destination).mp hd)
        · intro _
          exact ⟨.noNearest, h.symm⟩
      · intro rr hrr
        rw [← h] at hrr
        exact absurd hrr (by simp)
    | some e =>
      rw [hd] at h
      dsimp only at h
      have hs_mem := findNearestNode_mem g origin s ho
      have he_mem := findNearestNode_mem g destination e hd
      have hg_ne : g.getAllNodes ≠ [] := by
        intro hnil
        rw [(findNearestNode_eq_none_iff g origin).mpr hnil] at ho
        exact absurd ho (by simp)
      by_cases hse : s.id = e.id
      · rw [if_pos hse] at h
        simp only [Option.some.injEq] at h
        constructor
        · constructor
          · intro ⟨err, herr⟩
            rw [← h] at herr
            exact absurd herr (by simp)
          · rintro (hnil | ⟨s', e', r', hs', he', hne', _, _⟩)
            · exact absurd hnil hg_ne
            · simp only [Option.some.injEq] at hs' he'
              rw [← hs', ← he'] at hne'
              exact absurd hse hne'
        · intro rr hrr
          rw [← h] at hrr
          simp only [Except.ok.injEq] at hrr
          rw [← hrr]
          exact ⟨rfl, by norm_num⟩
      · rw [if_neg hse] at h
        cases ha : aStar fuel g hdist s.id e.id with
        | none => rw [ha] at h; exact absurd h (by simp)
        | some exc =>
          cases exc with
          | error err' =>
            exfalso
            have he_some : (g.getNode e.id).isSome :=
              getNode_isSome_of_mem g e he_mem
            unfold aStar at ha
            cases hgn : g.getNode e.id with
            | none => rw [hgn] at he_some; simp at he_some
            | some gn =>
              rw [hgn] at ha
              rw [Option.map_eq_some'] at ha
              obtain ⟨r', _, habs⟩ := ha
              exact absurd habs (by simp)
          | ok r =>
            rw [ha] at h
            dsimp only at h
            by_cases hemp : r.path.isEmpty = true
            · rw [if_pos hemp] at h
              simp only [Option.some.injEq] at h
              constructor
              · constructor
                · intro _
                  exact Or.inr ⟨s, e, r, rfl, rfl, hse, ha,
                    List.isEmpty_iff.mp hemp⟩
                · intro _
                  exact ⟨.noPath, h.symm⟩
              · intro rr hrr
                rw [← h] at hrr
                exact absurd hrr (by simp)
            · rw [if_neg hemp] at h
              have hpath_ne : r.path ≠ [] := by
                intro hnil
                rw [hnil] at hemp
                exact hemp rfl
              obtain ⟨_, _, hids, _⟩ := aStar_sound fuel g hdist s.id e.id r ha
              have hs_some : (g.getNode s.id).isSome :=
                getNode_isSome_of_mem g s hs_mem
              have he_some : (g.getNode e.id).isSome :=
                getNode_isSome_of_mem g e he_mem
              have hall : ∀ id ∈ r.path, (g.getNode id).isSome := by
                intro id hid
                rcases hids id hid with rfl | rfl | hx
                · exact he_some
                · exact hs_some
                · exact hx
              obtain ⟨cs, hcs, hlen⟩ := coordsOf_ok g r.path hall
              rw [hcs] at h
              dsimp only at h
              simp only [Option.some.injEq] at h
              constructor
              · constructor
                · intro ⟨err, herr⟩
                  rw [← h] at herr
                  exact absurd herr (by simp)
                · rintro (hnil | ⟨s', e', r', hs', he', hne', ha', hr'⟩)
                  · exact absurd hnil hg_ne
                  · exfalso
                    simp only [Option.some.injEq] at hs' he'
                    rw [← hs', ← he'] at ha'
                    rw [ha] at ha'
                    simp only [Option.some.injEq, Except.ok.injEq] at ha'
                    rw [← ha'] at hr'
                    exact hpath_ne hr'
              · intro rr hrr
                rw [← h] at hrr
                simp only [Except.ok.injEq] at hrr
                rw [← hrr]
                refine ⟨hlen, ?_⟩
                simpa using List.length_pos.mpr hpath_ne

/-- Empty witness graph for C2. -/
def gE : Graph ℤ := ⟨[], []⟩

/-- Witness query point for C2. -/
def pE : Point := ⟨0, 0⟩

/-- Witness for C2 at the empty graph: the call reports the
nearest-node failure, and the characterization holds for it. -/
theorem findRoute_error_iff_witness :
    findRoute 1 gE (fun _ _ => (0 : ℤ)) pE pE =
        some (.error .noNearest) ∧
      (((∃ err, (Except.error RouteError.noNearest :
            Except RouteError (RouteResult ℤ)) = .error err) ↔
          (gE.getAllNodes = [] ∨
            ∃ s e r, findNearestNode gE pE = some s ∧
              findNearestNode gE pE = some e ∧ s.id ≠ e.id ∧
              aStar 1 gE (fun _ _ => (0 : ℤ)) s.id e.id = some (.ok r) ∧
              r.path = [])) ∧
        (∀ rr, (Except.error RouteError.noNearest :
            Except RouteError (RouteResult ℤ)) = .ok rr →
          rr.coordinates.length = rr.waypoints ∧ 0 < rr.waypoints)) :=
  ⟨rfl, findRoute_error_iff 1 gE (fun _ _ => (0 : ℤ)) pE pE
    (.error .noNearest) rfl⟩

/-- Index-map/heap consistency: every heap slot is registered in the
map at its position, and every registered id points at a slot holding
an entry with that id. -/
def IdxOk {W : Type} (q : PriorityQueue W) : Prop :=
  (∀ (i : ℕ) (ei : PQEntry W), q.heap[i]? = some ei →
    q.nodeIdToIndex ei.nodeId = some i) ∧
  (∀ (id : ℤ) (i : ℕ), q.nodeIdToIndex id = some i →
    ∃ ei, q.heap[i]? = some ei ∧ ei.nodeId = id)

/-- Binary min-heap order on f-costs over the array. -/
def HeapOk {W : Type} [LinearOrder W] (l : List (PQEntry W)) : Prop :=
  ∀ (j : ℕ) (ej ep : PQEntry W), 0 < j → l[j]? = some ej →
    l[(j - 1) / 2]? = some ep → ep.fCost ≤ ej.fCost

/-- The priority-queue invariant of C8: consistent index map plus heap
order (node-id uniqueness follows from `IdxOk`). -/
def PQWF {W : Type} [LinearOrder W] (q : PriorityQueue W) : Prop :=
  IdxOk q ∧ HeapOk q.heap

theorem IdxOk_unique {W : Type} {q : PriorityQueue W} (h : IdxOk q) :
    ∀ (i j : ℕ) (ei ej : PQEntry W), q.heap[i]? = some ei →
      q.heap[j]? = some ej → ei.nodeId = ej.nodeId → i = j := by
  intro i j ei ej hi hj hid
  have h1 := h.1 i ei hi
  have h2 := h.1 j ej hj
  rw [hid] at h1
  rw [h1] at h2
  exact Option.some_inj.mp h2

theorem swap_spec {W : Type} {q : PriorityQueue W} {i j : ℕ}
    {a b : PQEntry W} (hi : q.heap[i]? = some a) (hj : q.heap[j]? = some b) :
    (∀ k : ℕ, (q.swap i j).heap[k]? =
      if k = j then some a else if k = i then some b else q.heap[k]?) ∧
    (q.swap i j).nodeIdToIndex =
      idxSet (idxSet q.nodeIdToIndex b.nodeId i) a.nodeId j := by
  unfold PriorityQueue.swap
  rw [hi, hj]
  dsimp only
  refine ⟨?_, rfl⟩
  intro k
  by_cases hk : k = j
  · rw [if_pos hk, hk]
    exact List.getElem?_set_eq_of_lt a (by
      rw [List.length_set]
      exact (List.getElem?_eq_some_iff.mp hj).1)
  · rw [if_neg hk, List.getElem?_set_ne (fun he => hk he.symm)]
    by_cases hk2 : k = i
    · rw [if_pos hk2, hk2]
      exact List.getElem?_set_eq_of_lt b (List.getElem?_eq_some_iff.mp hi).1
    · rw [if_neg hk2, List.getElem?_set_ne (fun he => hk2 he.symm)]

theorem swap_IdxOk {W : Type} {q : PriorityQueue W} {i j : ℕ}
    {a b : PQEntry W} (hne : i ≠ j) (hi : q.heap[i]? = some a)
    (hj : q.heap[j]? = some b) (hq : IdxOk q) : IdxOk (q.swap i j) := by
  obtain ⟨hspec, hidx⟩ := swap_spec hi hj
  have hab : a.nodeId ≠ b.nodeId :=
    fun he => hne (IdxOk_unique hq i j a b hi hj he)
  constructor
  · intro k ek hk
    rw [hspec k] at hk
    rw [hidx]
    unfold idxSet
    by_cases hkj : k = j
    · rw [if_pos hkj] at hk
      simp only [Option.some.injEq] at hk
      rw [← hk, if_pos rfl, hkj]
    · rw [if_neg hkj] at hk
      by_cases hki : k = i
      · rw [if_pos hki] at hk
        simp only [Option.some.injEq] at hk
        rw [← hk, if_neg (fun he => hab he.symm), if_pos rfl, hki]
      · rw [if_neg hki] at hk
        have hka : ek.nodeId ≠ a.nodeId :=
          fun he => hki (IdxOk_unique hq k i ek a hk hi he)
        have hkb : ek.nodeId ≠ b.nodeId :=
          fun he => hkj (IdxOk_unique hq k j ek b hk hj he)
        rw [if_neg hka, if_neg hkb]
        exact hq.1 k ek hk
  · intro id k hk
    rw [hidx] at hk
    unfold idxSet at hk
    by_cases hida : id = a.nodeId
    · rw [if_pos hida] at hk
      simp only [Option.some.injEq] at hk
      refine ⟨a, ?_, hida.symm⟩
      rw [hspec k, ← hk, if_pos rfl]
    · rw [if_neg hida] at hk
      by_cases hidb : id = b.nodeId
      · rw [if_pos hidb] at hk
        simp only [Option.some.injEq] at hk
        refine ⟨b, ?_, hidb.symm⟩
        rw [hspec k, ← hk, if_neg hne, if_pos rfl]
      · rw [if_neg hidb] at hk
        obtain ⟨ei, hei, hid⟩ := hq.2 id k hk
        have hki : k ≠ i := by
          intro he
          rw [he, hi] at hei
          simp only [Option.some.injEq] at hei
          rw [← hei] at hid
          exact hida hid.symm
        have hkj : k ≠ j := by
          intro he
          rw [he, hj] at hei
          simp only [Option.some.injEq] at hei
          rw [← hei] at hid
          exact hidb hid.symm
        refine ⟨ei, ?_, hid⟩
        rw [hspec k, if_neg hkj, if_neg hki]
        exact hei

/-- Heap order except possibly on the edge into slot `i` from its
parent, strengthened by the grandparent bound over `i`'s children. -/
def HeapExceptUp {W : Type} [LinearOrder W] (l : List (PQEntry W)) (i : ℕ) :
    Prop :=
  (∀ (j : ℕ) (ej ep : PQEntry W), 0 < j → j ≠ i → l[j]? = some ej →
    l[(j - 1) / 2]? = some ep → ep.fCost ≤ ej.fCost) ∧
  (∀ (c : ℕ) (ec gp : PQEntry W), (c - 1) / 2 = i → 0 < i →
    l[c]? = some ec → l[(i - 1) / 2]? = some gp → gp.fCost ≤ ec.fCost)

theorem heapExceptUp_swap {W : Type} [LinearOrder W] {q : PriorityQueue W}
    {i : ℕ} {ei ep : PQEntry W} (h0 : i ≠ 0)
    (hi : q.heap[i]? = some ei) (hp : q.heap[(i - 1) / 2]? = some ep)
    (hlt : ei.fCost < ep.fCost) (hHeap : HeapExceptUp q.heap i) :
    HeapExceptUp (q.swap i ((i - 1) / 2)).heap ((i - 1) / 2) := by
  obtain ⟨hspec, _⟩ := swap_spec hi hp
  have hip : i ≠ (i - 1) / 2 := by omega
  constructor
  · intro j ej eq' hj0 hjp hje hqe
    rw [hspec j] at hje
    rw [hspec ((j - 1) / 2)] at hqe
    by_cases hji : j = i
    · rw [if_neg hjp, if_pos hji] at hje
      rw [if_pos (by omega : (j - 1) / 2 = (i - 1) / 2)] at hqe
      simp only [Option.some.injEq] at hje hqe
      rw [← hje, ← hqe]
      exact le_of_lt hlt
    · rw [if_neg hjp, if_neg hji] at hje
      by_cases hpar_p : (j - 1) / 2 = (i - 1) / 2
      · rw [if_pos hpar_p] at hqe
        simp only [Option.some.injEq] at hqe
        rw [← hqe]
        have := hHeap.1 j ej ep hj0 hji hje (by rw [hpar_p]; exact hp)
        exact le_trans (le_of_lt hlt) this
      · rw [if_neg hpar_p] at hqe
        by_cases hpar_i : (j - 1) / 2 = i
        · rw [if_pos hpar_i] at hqe
          simp only [Option.some.injEq] at hqe
          rw [← hqe]
          exact hHeap.2 j ej ep hpar_i (by omega) hje hp
        · rw [if_neg hpar_i] at hqe
          exact hHeap.1 j ej eq' hj0 hji hje hqe
  · intro c ec gp2 hcp hp0 hce hge
    rw [hspec c] at hce
    rw [hspec (((i - 1) / 2 - 1) / 2)] at hge
    have hg_ne_p : ((i - 1) / 2 - 1) / 2 ≠ (i - 1) / 2 := by omega
    have hg_ne_i : ((i - 1) / 2 - 1) / 2 ≠ i := by omega
    rw [if_neg hg_ne_p, if_neg hg_ne_i] at hge
    have hc_ne_p : c ≠ (i - 1) / 2 := by omega
    have hgp_le_ep : gp2.fCost ≤ ep.fCost :=
      hHeap.1 ((i - 1) / 2) ep gp2 hp0 (fun he => hip he.symm) hp hge
    by_cases hci : c = i
    · rw [if_neg hc_ne_p, if_pos hci] at hce
      simp only [Option.some.injEq] at hce
      rw [← hce]
      exact hgp_le_ep
    · rw [if_neg hc_ne_p, if_neg hci] at hce
      have hep_le_ec : ep.fCost ≤ ec.fCost :=
        hHeap.1 c ec ep (by omega) hci hce (by rw [hcp]; exact hp)
      exact le_trans hgp_le_ep hep_le_ec

theorem bubbleUp_sound {W : Type} [LinearOrder W] :
    ∀ (i : ℕ) (q : PriorityQueue W), IdxOk q → HeapExceptUp q.heap i →
      IdxOk (q.bubbleUp i) ∧ HeapOk (q.bubbleUp i).heap := by
  intro i
  induction i using Nat.strong_induction_on with
  | _ i ih =>
    intro q hIdx hHeap
    unfold PriorityQueue.bubbleUp
    by_cases h0 : i = 0
    · rw [dif_pos h0]
      refine ⟨hIdx, ?_⟩
      intro j ej ep hj hje hpe
      exact hHeap.1 j ej ep hj (by omega) hje hpe
    · rw [dif_neg h0]
      cases hi : q.heap[i]? with
      | none =>
        refine ⟨hIdx, ?_⟩
        intro j ej ep hj hje hpe
        by_cases hji : j = i
        · rw [hji, hi] at hje
          exact absurd hje (by simp)
        · exact hHeap.1 j ej ep hj hji hje hpe
      | some ei =>
        cases hp : q.heap[(i - 1) / 2]? with
        | none =>
          refine ⟨hIdx, ?_⟩
          intro j ej ep hj hje hpe
          by_cases hji : j = i
          · rw [hji, hp] at hpe
            exact absurd hpe (by simp)
          · exact hHeap.1 j ej ep hj hji hje hpe
        | some ep' =>
          dsimp only
          by_cases hle : ep'.fCost ≤ ei.fCost
          · rw [if_pos hle]
            refine ⟨hIdx, ?_⟩
            intro j ej ep hj hje hpe
            by_cases hji : j = i
            · rw [hji] at hje hpe
              rw [hje] at hi
              rw [hpe] at hp
              simp only [Option.some.injEq] at hi hp
              rw [← hi, ← hp] at hle
              exact hle
            · exact hHeap.1 j ej ep hj hji hje hpe
          · rw [if_neg hle]
            exact ih ((i - 1) / 2) (by omega) _
              (swap_IdxOk (by omega) hi hp hIdx)
              (heapExceptUp_swap h0 hi hp (lt_of_not_le hle) hHeap)

/-- Heap order except possibly on the edges out of slot `i` to its
children, strengthened by the grandparent bound over `i`'s children. -/
def HeapExceptDown {W : Type} [LinearOrder W] (l : List (PQEntry W)) (i : ℕ) :
    Prop :=
  (∀ (j : ℕ) (ej ep : PQEntry W), 0 < j → (j - 1) / 2 ≠ i → l[j]? = some ej →
    l[(j - 1) / 2]? = some ep → ep.fCost ≤ ej.fCost) ∧
  (∀ (c : ℕ) (ec gp : PQEntry W), (c - 1) / 2 = i → 0 < i →
    l[c]? = some ec → l[(i - 1) / 2]? = some gp → gp.fCost ≤ ec.fCost)

theorem childMin_eq_cur_le {W : Type} [LinearOrder W] {q : PriorityQueue W}
    {c cur : ℕ} (h : childMin q c cur = cur) (hne : c ≠ cur) :
    ∀ (ec ecur : PQEntry W), q.heap[c]? = some ec →
      q.heap[cur]? = some ecur → ecur.fCost ≤ ec.fCost := by
  intro ec ecur hc hcur
  unfold childMin at h
  rw [hc, hcur] at h
  dsimp only at h
  by_cases hlt : ec.fCost < ecur.fCost
  · rw [if_pos hlt] at h
    exact absurd h hne
  · exact le_of_not_lt hlt

theorem childMin_eq_cand {W : Type} [LinearOrder W] {q : PriorityQueue W}
    {c cur : ℕ} (h : childMin q c cur = c) (hne : c ≠ cur) :
    ∃ ec ecur, q.heap[c]? = some ec ∧ q.heap[cur]? = some ecur ∧
      ec.fCost < ecur.fCost := by
  unfold childMin at h
  cases hc : q.heap[c]? with
  | none =>
    rw [hc] at h
    cases hcur : q.heap[cur]? with
    | none => rw [hcur] at h; exact absurd h.symm hne
    | some ecur => rw [hcur] at h; exact absurd h.symm hne
  | some ec =>
    rw [hc] at h
    cases hcur : q.heap[cur]? with
    | none => rw [hcur] at h; exact absurd h.symm hne
    | some ecur =>
      rw [hcur] at h
      dsimp only at h
      by_cases hlt : ec.fCost < ecur.fCost
      · exact ⟨ec, ecur, rfl, rfl, hlt⟩
      · rw [if_neg hlt] at h
        exact absurd h.symm hne

theorem childMin_of_cur_none {W : Type} [LinearOrder W] {q : PriorityQueue W}
    {c cur : ℕ} (h : q.heap[cur]? = none) : childMin q c cur = cur := by
  unfold childMin
  cases hc : q.heap[c]? <;> rw [h]

theorem heapExceptDown_swap {W : Type} [LinearOrder W] {q : PriorityQueue W}
    {i s : ℕ} {eiv es : PQEntry W}
    (hs_child : s = 2 * i + 1 ∨ s = 2 * i + 2)
    (hi : q.heap[i]? = some eiv) (hs : q.heap[s]? = some es)
    (hlt : es.fCost < eiv.fCost)
    (hother : ∀ (o : ℕ) (eo : PQEntry W), (o = 2 * i + 1 ∨ o = 2 * i + 2) →
      o ≠ s → q.heap[o]? = some eo → es.fCost ≤ eo.fCost)
    (hDown : HeapExceptDown q.heap i) :
    HeapExceptDown (q.swap i s).heap s := by
  obtain ⟨hspec, _⟩ := swap_spec hi hs
  have his : i ≠ s := by omega
  constructor
  · intro j ej ep' hj0 hjp hje hqe
    rw [hspec j] at hje
    rw [hspec ((j - 1) / 2)] at hqe
    by_cases hjs : j = s
    · rw [if_pos hjs] at hje
      rw [if_neg (by omega : (j - 1) / 2 ≠ s),
        if_pos (by omega : (j - 1) / 2 = i)] at hqe
      simp only [Option.some.injEq] at hje hqe
      rw [← hje, ← hqe]
      exact le_of_lt hlt
    · rw [if_neg hjs] at hje
      by_cases hji : j = i
      · rw [if_pos hji] at hje
        have hi0 : 0 < i := by omega
        rw [if_neg (by omega : (j - 1) / 2 ≠ s),
          if_neg (by omega : (j - 1) / 2 ≠ i)] at hqe
        simp only [Option.some.injEq] at hje
        rw [← hje]
        exact hDown.2 s es ep' (by omega) hi0 hs (by
          rw [show (i - 1) / 2 = (j - 1) / 2 by omega]
          exact hqe)
      · rw [if_neg hji] at hje
        by_cases hpar_i : (j - 1) / 2 = i
        · rw [if_neg (by omega : (j - 1) / 2 ≠ s), if_pos hpar_i] at hqe
          simp only [Option.some.injEq] at hqe
          rw [← hqe]
          exact hother j ej (by omega) hjs hje
        · rw [if_neg hjp, if_neg hpar_i] at hqe
          exact hDown.1 j ej ep' hj0 hpar_i hje hqe
  · intro c ec gp' hcp hs0 hce hge
    rw [hspec c] at hce
    rw [hspec ((s - 1) / 2)] at hge
    rw [if_neg (by omega : (s - 1) / 2 ≠ s),
      if_pos (by omega : (s - 1) / 2 = i)] at hge
    simp only [Option.some.injEq] at hge
    rw [if_neg (by omega : c ≠ s), if_neg (by omega : c ≠ i)] at hce
    rw [← hge]
    exact hDown.1 c ec es (by omega) (by omega) hce (by
      rw [show (c - 1) / 2 = s from hcp]
      exact hs)

theorem bubbleDown_sound {W : Type} [LinearOrder W] :
    ∀ (n : ℕ) (q : PriorityQueue W) (i : ℕ), q.heap.length ≤ i + n →
      IdxOk q → HeapExceptDown q.heap i →
      IdxOk (q.bubbleDown i) ∧ HeapOk (q.bubbleDown i).heap := by
  intro n
  induction n with
  | zero =>
    intro q i hlen hIdx hDown
    have hnone : q.heap[i]? = none := List.getElem?_eq_none (by omega)
    have hx : childMin q (2 * i + 1) i = i := childMin_of_cur_none hnone
    have hs : childMin q (2 * i + 2) (childMin q (2 * i + 1) i) = i := by
      rw [hx]
      exact childMin_of_cur_none hnone
    unfold PriorityQueue.bubbleDown
    dsimp only
    rw [dif_pos hs]
    refine ⟨hIdx, ?_⟩
    intro j ej ep hj0 hje hpe
    by_cases hpar : (j - 1) / 2 = i
    · rw [hpar, hnone] at hpe
      exact absurd hpe (by simp)
    · exact hDown.1 j ej ep hj0 hpar hje hpe
  | succ n ih =>
    intro q i hlen hIdx hDown
    unfold PriorityQueue.bubbleDown
    dsimp only
    by_cases hsi : childMin q (2 * i + 2) (childMin q (2 * i + 1) i) = i
    · rw [dif_pos hsi]
      have hx : childMin q (2 * i + 1) i = i := by
        by_cases hxe : childMin q (2 * i + 1) i = i
        · exact hxe
        · obtain ⟨hxv, _⟩ := childMin_ne hxe
          by_cases h2 : childMin q (2 * i + 2) (childMin q (2 * i + 1) i) =
              childMin q (2 * i + 1) i
          · rw [hsi] at h2
            exact h2.symm
          · obtain ⟨h2v, _⟩ := childMin_ne h2
            rw [hsi] at h2v
            omega
      have hL := childMin_eq_cur_le hx (by omega)
      have hR := childMin_eq_cur_le (by rw [hx] at hsi; exact hsi) (by omega)
      refine ⟨hIdx, ?_⟩
      intro j ej ep hj0 hje hpe
      by_cases hpar : (j - 1) / 2 = i
      · have hj_cases : j = 2 * i + 1 ∨ j = 2 * i + 2 := by omega
        rw [hpar] at hpe
        rcases hj_cases with rfl | rfl
        · exact hL ej ep hje hpe
        · exact hR ej ep hje hpe
      · exact hDown.1 j ej ep hj0 hpar hje hpe
    · rw [dif_neg hsi]
      obtain ⟨hgt, hbound⟩ := childMin2_ne hsi
      have hx_cases : childMin q (2 * i + 1) i = 2 * i + 1 ∨
          childMin q (2 * i + 1) i = i := by
        by_cases hxx : childMin q (2 * i + 1) i = i
        · exact Or.inr hxx
        · exact Or.inl (childMin_ne hxx).1
      have key : ∃ es eiv,
          (childMin q (2 * i + 2) (childMin q (2 * i + 1) i) = 2 * i + 1 ∨
            childMin q (2 * i + 2) (childMin q (2 * i + 1) i) = 2 * i + 2) ∧
          q.heap[i]? = some eiv ∧
          q.heap[childMin q (2 * i + 2) (childMin q (2 * i + 1) i)]? =
            some es ∧
          es.fCost < eiv.fCost ∧
          (∀ (o : ℕ) (eo : PQEntry W), (o = 2 * i + 1 ∨ o = 2 * i + 2) →
            o ≠ childMin q (2 * i + 2) (childMin q (2 * i + 1) i) →
            q.heap[o]? = some eo → es.fCost ≤ eo.fCost) := by
        by_cases h2 : childMin q (2 * i + 2) (childMin q (2 * i + 1) i) =
            childMin q (2 * i + 1) i
        · -- the selected child is the left one
          have hxl : childMin q (2 * i + 1) i = 2 * i + 1 := by
            rcases hx_cases with h | h
            · exact h
            · exact absurd (h2.trans h) hsi
          have hs_eq : childMin q (2 * i + 2) (childMin q (2 * i + 1) i) =
              2 * i + 1 := h2.trans hxl
          obtain ⟨el, eiv, hel, heiv, hlt⟩ :=
            childMin_eq_cand hxl (by omega)
          refine ⟨el, eiv, Or.inl hs_eq, heiv,
            by rw [hs_eq]; exact hel, hlt, ?_⟩
          intro o eo ho hos hoe
          have ho2 : o = 2 * i + 2 := by
            rcases ho with rfl | rfl
            · exact absurd hs_eq.symm hos
            · rfl
          subst ho2
          have h2' : childMin q (2 * i + 2) (2 * i + 1) = 2 * i + 1 := by
            rw [hxl] at h2
            exact h2
          exact childMin_eq_cur_le h2' (by omega) eo el hoe hel
        · -- the selected child is the right one
          obtain ⟨hsr, _⟩ := childMin_ne h2
          obtain ⟨er, ex, her, hex, hlt2⟩ := childMin_eq_cand hsr (by
            rcases hx_cases with h | h <;> omega)
          rcases hx_cases with hxl | hxi
          · -- left also beat the root
            obtain ⟨el, eiv, hel, heiv, hlt3⟩ :=
              childMin_eq_cand hxl (by omega)
            rw [hxl, hel] at hex
            simp only [Option.some.injEq] at hex
            rw [← hex] at hlt2
            refine ⟨er, eiv, Or.inr hsr, heiv, by rw [hsr]; exact her,
              lt_trans hlt2 hlt3, ?_⟩
            intro o eo ho hos hoe
            have ho1 : o = 2 * i + 1 := by
              rcases ho with rfl | rfl
              · rfl
              · exact absurd hsr.symm hos
            subst ho1
            rw [hoe] at hel
            simp only [Option.some.injEq] at hel
            rw [hel]
            exact le_of_lt hlt2
          · -- the root survived the left comparison
            rw [hxi] at hex
            refine ⟨er, ex, Or.inr hsr, hex, by rw [hsr]; exact her,
              hlt2, ?_⟩
            intro o eo ho hos hoe
            have ho1 : o = 2 * i + 1 := by
              rcases ho with rfl | rfl
              · rfl
              · exact absurd hsr.symm hos
            subst ho1
            have := childMin_eq_cur_le hxi (by omega) eo ex hoe hex
            exact le_trans (le_of_lt hlt2) this
      obtain ⟨es, eiv, hs_child, hi, hs, hlt, hother⟩ := key
      refine ih (q.swap i (childMin q (2 * i + 2) (childMin q (2 * i + 1) i)))
        (childMin q (2 * i + 2) (childMin q (2 * i + 1) i)) ?_
        (swap_IdxOk (by omega) hi hs hIdx)
        (heapExceptDown_swap hs_child hi hs hlt hother hDown)
      rw [PriorityQueue.swap_heap_length]
      omega

theorem update_WF {W : Type} [LinearOrder W] (q : PriorityQueue W) (id : ℤ)
    (nf ng : W) (hq : PQWF q) : PQWF (q.update id nf ng).2 := by
  obtain ⟨hIdx, hHeap⟩ := hq
  unfold PriorityQueue.update
  cases hix : q.nodeIdToIndex id with
  | none => exact ⟨hIdx, hHeap⟩
  | some i =>
    dsimp only
    cases hie : q.heap[i]? with
    | none => exact ⟨hIdx, hHeap⟩
    | some old =>
      dsimp only
      have hi_lt : i < q.heap.length := (List.getElem?_eq_some_iff.mp hie).1
      have hspec : ∀ k, (q.heap.set i ⟨old.nodeId, nf, ng⟩)[k]? =
          if k = i then some ⟨old.nodeId, nf, ng⟩ else q.heap[k]? := by
        intro k
        by_cases hk : k = i
        · rw [if_pos hk, hk]
          exact List.getElem?_set_eq_of_lt _ hi_lt
        · rw [if_neg hk]
          exact List.getElem?_set_ne (fun he => hk he.symm)
      have hIdx' : IdxOk
          ⟨q.heap.set i ⟨old.nodeId, nf, ng⟩, q.nodeIdToIndex⟩ := by
        constructor
        · intro k ek hk
          dsimp only at hk ⊢
          rw [hspec k] at hk
          by_cases hk' : k = i
          · rw [if_pos hk'] at hk
            simp only [Option.some.injEq] at hk
            rw [← hk]
            rw [hk']
            exact hIdx.1 i old hie
          · rw [if_neg hk'] at hk
            exact hIdx.1 k ek hk
        · intro id' k hk
          dsimp only at hk ⊢
          obtain ⟨ei, hei, hid⟩ := hIdx.2 id' k hk
          by_cases hk' : k = i
          · refine ⟨⟨old.nodeId, nf, ng⟩, by rw [hspec k, if_pos hk'], ?_⟩
            rw [hk', hie] at hei
            simp only [Option.some.injEq] at hei
            rw [← hei] at hid
            exact hid
          · exact ⟨ei, by rw [hspec k, if_neg hk']; exact hei, hid⟩
      by_cases h1 : nf < old.fCost
      · rw [if_pos h1]
        refine bubbleUp_sound i _ hIdx' ⟨?_, ?_⟩
        · intro j ej ep hj0 hji hje hpe
          dsimp only at hje hpe
          rw [hspec j, if_neg hji] at hje
          rw [hspec ((j - 1) / 2)] at hpe
          by_cases hpi : (j - 1) / 2 = i
          · rw [if_pos hpi] at hpe
            simp only [Option.some.injEq] at hpe
            rw [← hpe]
            have := hHeap j ej old hj0 hje (by rw [hpi]; exact hie)
            exact le_trans (le_of_lt h1) this
          · rw [if_neg hpi] at hpe
            exact hHeap j ej ep hj0 hje hpe
        · intro c ec gp hcp hi0 hce hge
          dsimp only at hce hge
          rw [hspec c, if_neg (by omega : c ≠ i)] at hce
          rw [hspec ((i - 1) / 2), if_neg (by omega : (i - 1) / 2 ≠ i)] at hge
          have step1 : gp.fCost ≤ old.fCost := hHeap i old gp hi0 hie hge
          have step2 : old.fCost ≤ ec.fCost :=
            hHeap c ec old (by omega) hce (by rw [hcp]; exact hie)
          exact le_trans step1 step2
      · rw [if_neg h1]
        by_cases h2 : old.fCost < nf
        · rw [if_pos h2]
          refine bubbleDown_sound q.heap.length _ i
            (by rw [List.length_set]; omega) hIdx' ⟨?_, ?_⟩
          · intro j ej ep hj0 hjp hje hpe
            dsimp only at hje hpe
            rw [hspec j] at hje
            rw [hspec ((j - 1) / 2), if_neg hjp] at hpe
            by_cases hji : j = i
            · rw [if_pos hji] at hje
              simp only [Option.some.injEq] at hje
              rw [← hje]
              have := hHeap j old ep hj0 (by rw [hji]; exact hie) hpe
              dsimp only
              exact le_trans this (le_of_lt h2)
            · rw [if_neg hji] at hje
              exact hHeap j ej ep hj0 hje hpe
          · intro c ec gp hcp hi0 hce hge
            dsimp only at hce hge
            rw [hspec c, if_neg (by omega : c ≠ i)] at hce
            rw [hspec ((i - 1) / 2), if_neg (by omega : (i - 1) / 2 ≠ i)] at hge
            have step1 : gp.fCost ≤ old.fCost := hHeap i old gp hi0 hie hge
            have step2 : old.fCost ≤ ec.fCost :=
              hHeap c ec old (by omega) hce (by rw [hcp]; exact hie)
            exact le_trans step1 step2
        · rw [if_neg h2]
          have hfe : nf = old.fCost := le_antisymm (not_lt.mp h2) (not_lt.mp h1)
          refine ⟨hIdx', ?_⟩
          intro j ej ep hj0 hje hpe
          dsimp only at hje hpe
          rw [hspec j] at hje
          rw [hspec ((j - 1) / 2)] at hpe
          by_cases hji : j = i
          · rw [if_pos hji] at hje
            rw [if_neg (by omega : (j - 1) / 2 ≠ i)] at hpe
            simp only [Option.some.injEq] at hje
            rw [← hje]
            dsimp only
            rw [hfe]
            exact hHeap j old ep hj0 (by rw [hji]; exact hie) hpe
          · rw [if_neg hji] at hje
            by_cases hpi : (j - 1) / 2 = i
            · rw [if_pos hpi] at hpe
              simp only [Option.some.injEq] at hpe
              rw [← hpe]
              dsimp only
              rw [hfe]
              exact hHeap j ej old hj0 hje (by rw [hpi]; exact hie)
            · rw [if_neg hpi] at hpe
              exact hHeap j ej ep hj0 hje hpe

theorem push_WF {W : Type} [LinearOrder W] (q : PriorityQueue W)
    (e : PQEntry W) (hq : PQWF q) : PQWF (q.push e) := by
  obtain ⟨hIdx, hHeap⟩ := hq
  unfold PriorityQueue.push
  cases hix : q.nodeIdToIndex e.nodeId with
  | some j => exact update_WF q e.nodeId e.fCost e.gCost ⟨hIdx, hHeap⟩
  | none =>
    dsimp only
    have hlen1 : (q.heap ++ [e]).length - 1 = q.heap.length := by simp
    rw [hlen1]
    refine bubbleUp_sound q.heap.length
      ⟨q.heap ++ [e], idxSet q.nodeIdToIndex e.nodeId q.heap.length⟩
      ⟨?_, ?_⟩ ⟨?_, ?_⟩
    · intro k ek hk
      dsimp only at hk ⊢
      have hk_lt : k < q.heap.length + 1 := by
        have := (List.getElem?_eq_some_iff.mp hk).1
        simpa using this
      unfold idxSet
      by_cases hke : k = q.heap.length
      · rw [hke] at hk
        rw [show (q.heap ++ [e])[q.heap.length]? = some e by simp] at hk
        simp only [Option.some.injEq] at hk
        rw [← hk, if_pos rfl, hke]
      · have hk_lt2 : k < q.heap.length := by omega
        rw [List.getElem?_append, if_pos hk_lt2] at hk
        have hne : ek.nodeId ≠ e.nodeId := by
          intro he
          have h2 := hIdx.1 k ek hk
          rw [he, hix] at h2
          exact absurd h2 (by simp)
        rw [if_neg hne]
        exact hIdx.1 k ek hk
    · intro id k hk
      dsimp only at hk ⊢
      unfold idxSet at hk
      by_cases hide : id = e.nodeId
      · rw [if_pos hide] at hk
        simp only [Option.some.injEq] at hk
        refine ⟨e, ?_, hide.symm⟩
        rw [← hk]
        simp
      · rw [if_neg hide] at hk
        obtain ⟨ei, hei, hid⟩ := hIdx.2 id k hk
        refine ⟨ei, ?_, hid⟩
        rw [List.getElem?_append,
          if_pos (List.getElem?_eq_some_iff.mp hei).1]
        exact hei
    · intro j ej ep hj0 hjl hje hpe
      dsimp only at hje hpe
      have hj_lt : j < q.heap.length + 1 := by
        have := (List.getElem?_eq_some_iff.mp hje).1
        simpa using this
      have hj_lt2 : j < q.heap.length := by omega
      rw [List.getElem?_append, if_pos hj_lt2] at hje
      rw [List.getElem?_append, if_pos (by omega)] at hpe
      exact hHeap j ej ep hj0 hje hpe
    · intro c ec gp hcp hl0 hce hge
      dsimp only at hce
      have hc_lt : c < q.heap.length + 1 := by
        have := (List.getElem?_eq_some_iff.mp hce).1
        simpa using this
      omega

theorem pop_WF {W : Type} [LinearOrder W] (q : PriorityQueue W)
    (hq : PQWF q) : PQWF (q.pop).2 := by
  obtain ⟨hIdx, hHeap⟩ := hq
  unfold PriorityQueue.pop
  cases hh : q.heap with
  | nil => exact ⟨hIdx, hHeap⟩
  | cons e0 tl =>
    cases tl with
    | nil =>
      dsimp only
      refine ⟨⟨?_, ?_⟩, ?_⟩
      · intro k ek hk
        dsimp only at hk
        exact absurd hk (by simp)
      · intro id k hk
        dsimp only at hk
        unfold idxDel at hk
        by_cases hide : id = e0.nodeId
        · rw [if_pos hide] at hk
          exact absurd hk (by simp)
        · rw [if_neg hide] at hk
          obtain ⟨ei, hei, hid⟩ := hIdx.2 id k hk
          rw [hh] at hei
          have hk0 : k = 0 := by
            have := (List.getElem?_eq_some_iff.mp hei).1
            simpa using this
          rw [hk0] at hei
          simp only [List.getElem?_cons_zero, Option.some.injEq] at hei
          rw [← hei] at hid
          exact absurd hid.symm hide
      · intro j ej ep hj0 hje hpe
        dsimp only at hje
        exact absurd hje (by simp)
    | cons e1 rest =>
      dsimp only
      have hqlen : q.heap.length = rest.length + 2 := by rw [hh]; simp
      have hlast_idx : q.heap[rest.length + 1]? =
          some ((e1 :: rest).getLast (List.cons_ne_nil e1 rest)) := by
        rw [hh]
        have h1 : (e0 :: e1 :: rest).getLast? =
            some ((e1 :: rest).getLast (List.cons_ne_nil e1 rest)) := by
          rw [List.getLast?_cons_cons]
          exact List.getLast?_eq_getLast _ _
        rw [List.getLast?_eq_getElem? (e0 :: e1 :: rest)] at h1
        rw [show (e0 :: e1 :: rest).length - 1 = rest.length + 1 by simp] at h1
        exact h1
      have h0 : q.heap[0]? = some e0 := by rw [hh]; rfl
      have hun : e0.nodeId ≠
          ((e1 :: rest).getLast (List.cons_ne_nil e1 rest)).nodeId := by
        intro he
        have := IdxOk_unique ⟨hIdx.1, hIdx.2⟩ 0 (rest.length + 1) _ _ h0
          hlast_idx he
        omega
      have hspec : ∀ k, (((e0 :: e1 :: rest).dropLast).set 0
            ((e1 :: rest).getLast (List.cons_ne_nil e1 rest)))[k]? =
          if k = 0 then
            some ((e1 :: rest).getLast (List.cons_ne_nil e1 rest))
          else if k < rest.length + 1 then q.heap[k]? else none := by
        intro k
        by_cases hk0 : k = 0
        · rw [if_pos hk0, hk0]
          exact List.getElem?_set_eq_of_lt _ (by simp)
        · rw [if_neg hk0, List.getElem?_set_ne (fun he => hk0 he.symm)]
          by_cases hkl : k < rest.length + 1
          · rw [if_pos hkl, List.getElem?_dropLast,
              if_pos (by simp; omega), hh]
          · rw [if_neg hkl]
            exact List.getElem?_eq_none (by simp; omega)
      refine bubbleDown_sound (rest.length + 1) _ 0 (by simp) ⟨?_, ?_⟩
        ⟨?_, ?_⟩
      · intro k ek hk
        dsimp only at hk ⊢
        rw [hspec k] at hk
        unfold idxDel idxSet
        by_cases hk0 : k = 0
        · rw [if_pos hk0] at hk
          simp only [Option.some.injEq] at hk
          rw [← hk, if_neg (fun he => hun he.symm), if_pos rfl, hk0]
        · rw [if_neg hk0] at hk
          by_cases hkl : k < rest.length + 1
          · rw [if_pos hkl] at hk
            have hne0 : ek.nodeId ≠ e0.nodeId := by
              intro he
              have := IdxOk_unique ⟨hIdx.1, hIdx.2⟩ k 0 ek e0 hk h0 he
              exact hk0 this
            have hnel : ek.nodeId ≠
                ((e1 :: rest).getLast (List.cons_ne_nil e1 rest)).nodeId := by
              intro he
              have := IdxOk_unique ⟨hIdx.1, hIdx.2⟩ k (rest.length + 1) ek _
                hk hlast_idx he
              omega
            rw [if_neg hne0, if_neg hnel]
            exact hIdx.1 k ek hk
          · rw [if_neg hkl] at hk
            exact absurd hk (by simp)
      · intro id k hk
        dsimp only at hk ⊢
        unfold idxDel idxSet at hk
        by_cases hide0 : id = e0.nodeId
        · rw [if_pos hide0] at hk
          exact absurd hk (by simp)
        · rw [if_neg hide0] at hk
          by_cases hidel : id =
              ((e1 :: rest).getLast (List.cons_ne_nil e1 rest)).nodeId
          · rw [if_pos hidel] at hk
            simp only [Option.some.injEq] at hk
            refine ⟨(e1 :: rest).getLast (List.cons_ne_nil e1 rest), ?_,
              hidel.symm⟩
            rw [hspec k, ← hk, if_pos rfl]
          · rw [if_neg hidel] at hk
            obtain ⟨ei, hei, hid⟩ := hIdx.2 id k hk
            have hk0 : k ≠ 0 := by
              intro he
              rw [he, h0] at hei
              simp only [Option.some.injEq] at hei
              rw [← hei] at hid
              exact hide0 hid.symm
            have hkl : k ≠ rest.length + 1 := by
              intro he
              rw [he, hlast_idx] at hei
              simp only [Option.some.injEq] at hei
              rw [← hei] at hid
              exact hidel hid.symm
            have hk_lt : k < rest.length + 2 := by
              have := (List.getElem?_eq_some_iff.mp hei).1
              omega
            refine ⟨ei, ?_, hid⟩
            rw [hspec k, if_neg hk0, if_pos (by omega)]
            exact hei
      · intro j ej ep hj0 hjp hje hpe
        dsimp only at hje hpe
        rw [hspec j, if_neg (by omega)] at hje
        rw [hspec ((j - 1) / 2), if_neg hjp] at hpe
        by_cases hjl : j < rest.length + 1
        · rw [if_pos hjl] at hje
          rw [if_pos (by omega)] at hpe
          exact hHeap j ej ep hj0 hje hpe
        · rw [if_neg hjl] at hje
          exact absurd hje (by simp)
      · intro c ec gp hcp hi0 hce hge
        omega

theorem push_present_eq_update {W : Type} [LinearOrder W]
    (q : PriorityQueue W) (e : PQEntry W)
    (h : q.nodeIdToIndex e.nodeId ≠ none) :
    q.push e = (q.update e.nodeId e.fCost e.gCost).2 := by
  unfold PriorityQueue.push
  cases hix : q.nodeIdToIndex e.nodeId with
  | none => exact absurd hix h
  | some j => rfl

/-- The freshly constructed queue satisfies the invariant. -/
theorem PQWF_empty (W : Type) [LinearOrder W] : PQWF (PriorityQueue.empty W) :=
  ⟨⟨fun _ _ hk => absurd hk (by simp [PriorityQueue.empty]),
    fun _ _ hk => absurd hk (by simp [PriorityQueue.empty])⟩,
    fun _ _ _ _ hje _ => absurd hje (by simp [PriorityQueue.empty])⟩

/-- C8: every `PriorityQueue` mutation — `push`, `pop`, `update` —
preserves the invariant that `nodeIdToIndex` maps exactly the node ids
in the heap to their correct positions and that the heap array is
min-heap-ordered on `fCost`; each node id occurs in at most one heap
slot, and `push` of an already-present id is exactly `update`
(part_001 lines 217-392). -/
theorem priorityQueue_invariants {W : Type} [LinearOrder W]
    (q : PriorityQueue W) (entry : PQEntry W) (nodeId : ℤ)
    (newFCost newGCost : W) (h : PQWF q) :
    PQWF (q.push entry) ∧ PQWF (q.pop).2 ∧
      PQWF (q.update nodeId newFCost newGCost).2 ∧
      (∀ (i j : ℕ) (ei ej : PQEntry W), q.heap[i]? = some ei →
        q.heap[j]? = some ej → ei.nodeId = ej.nodeId → i = j) ∧
      (q.nodeIdToIndex entry.nodeId ≠ none →
        q.push entry = (q.update entry.nodeId entry.fCost entry.gCost).2) :=
  ⟨push_WF q entry h, pop_WF q h, update_WF q nodeId newFCost newGCost h,
    IdxOk_unique h.1, push_present_eq_update q entry⟩

/-- Witness for C8 at the empty integer-cost queue. -/
theorem priorityQueue_invariants_witness :
    PQWF (PriorityQueue.empty ℤ) ∧
      (PQWF ((PriorityQueue.empty ℤ).push ⟨1, 2, 3⟩) ∧
        PQWF ((PriorityQueue.empty ℤ).pop).2 ∧
        PQWF (((PriorityQueue.empty ℤ).update 4 5 6)).2 ∧
        (∀ (i j : ℕ) (ei ej : PQEntry ℤ),
          (PriorityQueue.empty ℤ).heap[i]? = some ei →
          (PriorityQueue.empty ℤ).heap[j]? = some ej →
          ei.nodeId = ej.nodeId → i = j) ∧
        ((PriorityQueue.empty ℤ).nodeIdToIndex (1 : ℤ) ≠ none →
          (PriorityQueue.empty ℤ).push ⟨1, 2, 3⟩ =
            ((PriorityQueue.empty ℤ).update 1 2 3).2)) :=
  ⟨PQWF_empty ℤ,
    priorityQueue_invariants (PriorityQueue.empty ℤ) ⟨1, 2, 3⟩ 4 5 6
      (PQWF_empty ℤ)⟩
